import Mathlib

/-!
# Verification of the graph-rag-study schema-aware query engine

Shallow embedding of the repository's core components:

* `src/sql/executor.py`   — `ParallelExecutor` (date-range partition
  detection, SQL rewriting, parallel fan-out/fan-in, result dictionaries);
* `src/sql/validator.py`  — `SQLValidator.validate`;
* `src/context/graph_rag.py` — `SchemaGraph` (graph construction, pairwise
  and multi-table join-path search).

Python `datetime.date` values are embedded as year/month/day triples over
`Nat`, compared through a rata-die style day count (`Spec.rata`); machine
integers do not overflow in any of the modelled code paths.  Fallible
Python code (code that can raise) is embedded with `Except`/`Option`
results.  Regular-expression operations are embedded as explicit scanners
over `List Char` for the exact patterns appearing in the source.
-/

namespace Spec

/-! ## Calendar model (Python `datetime.date` / `timedelta` arithmetic) -/

/-- Gregorian leap-year rule, as implemented by Python `datetime`. -/
def isLeap (y : Nat) : Bool :=
  (y % 4 == 0 && y % 100 != 0) || y % 400 == 0

/-- Number of days in month `m` (1..12) of year `y`. -/
def daysInMonth (y m : Nat) : Nat :=
  if m = 2 then (if isLeap y then 29 else 28)
  else if m = 4 ∨ m = 6 ∨ m = 9 ∨ m = 11 then 30
  else 31

/-- Days in year `y` that precede month `m` (so `daysBeforeMonth y 1 = 0`). -/
def daysBeforeMonth (y : Nat) : Nat → Nat
  | 0 => 0
  | 1 => 0
  | m + 1 => daysBeforeMonth y m + daysInMonth y m

/-- Number of leap years in `1..y-1`. -/
def leapsBefore (y : Nat) : Nat :=
  (y - 1) / 4 - (y - 1) / 100 + (y - 1) / 400

/-- Days in all years strictly before year `y` (counting from year 1). -/
def daysBeforeYear (y : Nat) : Nat :=
  365 * (y - 1) + leapsBefore y

/-- A calendar date as stored in a Python `datetime` value. -/
structure Date where
  year : Nat
  month : Nat
  day : Nat
  deriving DecidableEq, Repr

/-- The validity invariant `datetime.date` enforces on construction
(`datetime.strptime` raises `ValueError` otherwise). -/
def Date.Valid (d : Date) : Prop :=
  1 ≤ d.year ∧ d.year ≤ 9999 ∧ 1 ≤ d.month ∧ d.month ≤ 12 ∧
    1 ≤ d.day ∧ d.day ≤ daysInMonth d.year d.month

instance (d : Date) : Decidable d.Valid := by
  unfold Date.Valid; infer_instance

/-- Rata-die style day number; Python date comparison and subtraction
agree with comparison and subtraction of this count on valid dates. -/
def rata (d : Date) : Nat :=
  daysBeforeYear d.year + daysBeforeMonth d.year d.month + d.day

/-- Python `d1 <= d2` on dates. -/
def dle (a b : Date) : Bool := rata a ≤ rata b

/-- Python `min(a, b)` (returns `b` exactly when `b < a`). -/
def minDate (a b : Date) : Date := if rata b < rata a then b else a

/-- Python `max(a, b)` (returns `b` exactly when `b > a`). -/
def maxDate (a b : Date) : Date := if rata a < rata b then b else a

/-- `current.replace(day=1)`. -/
def firstOfMonth (d : Date) : Date := ⟨d.year, d.month, 1⟩

/-- The `next_month` computation of `ParallelExecutor._detect_partitions`:
`current.replace(year=current.year+1, month=1)` when `current.month == 12`,
else `current.replace(month=current.month+1)` (the day is kept). -/
def nextMonth (d : Date) : Date :=
  if d.month = 12 then ⟨d.year + 1, 1, d.day⟩ else ⟨d.year, d.month + 1, d.day⟩

/-- Python `d - timedelta(days=1)` expressed on the calendar triple. -/
def prevDay (d : Date) : Date :=
  if 1 < d.day then ⟨d.year, d.month, d.day - 1⟩
  else if 1 < d.month then ⟨d.year, d.month - 1, daysInMonth d.year (d.month - 1)⟩
  else ⟨d.year - 1, 12, 31⟩

theorem daysInMonth_pos (y m : Nat) : 28 ≤ daysInMonth y m := by
  unfold daysInMonth
  split
  · split <;> omega
  · split <;> omega

theorem daysInMonth_le (y m : Nat) : daysInMonth y m ≤ 31 := by
  unfold daysInMonth
  split
  · split <;> omega
  · split <;> omega

theorem daysBeforeMonth_succ (y m : Nat) (hm : 1 ≤ m) :
    daysBeforeMonth y (m + 1) = daysBeforeMonth y m + daysInMonth y m := by
  match m, hm with
  | m + 1, _ => rfl

theorem isLeap_iff (y : Nat) :
    isLeap y = true ↔ ((y % 4 = 0 ∧ ¬ (y % 100 = 0)) ∨ y % 400 = 0) := by
  simp [isLeap]

theorem leapsBefore_succ (y : Nat) (hy : 1 ≤ y) :
    leapsBefore (y + 1) = leapsBefore y + (if isLeap y then 1 else 0) := by
  unfold leapsBefore
  simp only [Nat.add_sub_cancel]
  cases hl : isLeap y
  case false =>
    have h : ¬ ((y % 4 = 0 ∧ ¬ (y % 100 = 0)) ∨ y % 400 = 0) := by
      rw [← isLeap_iff]; simp [hl]
    simp only [Bool.false_eq_true, if_false, add_zero]
    omega
  case true =>
    have h := (isLeap_iff y).mp hl
    simp only [if_true]
    omega

theorem daysBeforeYear_succ (y : Nat) (hy : 1 ≤ y) :
    daysBeforeYear (y + 1) =
      daysBeforeYear y + (if isLeap y then 366 else 365) := by
  unfold daysBeforeYear
  rw [leapsBefore_succ y hy]
  have h1 : y + 1 - 1 = (y - 1) + 1 := by omega
  rw [h1]
  cases hl : isLeap y <;> simp only [Bool.false_eq_true, if_false, if_true] <;> ring_nf <;> omega

theorem daysBeforeMonth_twelve (y : Nat) :
    daysBeforeMonth y 12 + daysInMonth y 12 =
      if isLeap y then 366 else 365 := by
  cases h : isLeap y <;> norm_num [daysBeforeMonth, daysInMonth, h]

/-- Advancing to the next month moves the rata count forward by exactly the
length of the current month, for any in-range month of a positive year. -/
theorem rata_nextMonth (d : Date) (hy : 1 ≤ d.year)
    (hm1 : 1 ≤ d.month) (hm2 : d.month ≤ 12) :
    rata (nextMonth d) = rata d + daysInMonth d.year d.month := by
  by_cases h12 : d.month = 12
  · have h1 : nextMonth d = ⟨d.year + 1, 1, d.day⟩ := by simp [nextMonth, h12]
    rw [h1, rata, rata, h12]
    show daysBeforeYear (d.year + 1) + daysBeforeMonth (d.year + 1) 1 + d.day =
      daysBeforeYear d.year + daysBeforeMonth d.year 12 + d.day +
        daysInMonth d.year 12
    have h2 : daysBeforeMonth (d.year + 1) 1 = 0 := rfl
    have h3 := daysBeforeYear_succ d.year hy
    have h4 := daysBeforeMonth_twelve d.year
    cases hl : isLeap d.year <;>
      simp only [hl, Bool.false_eq_true, if_false, if_true] at h3 h4 <;> omega
  · have h1 : nextMonth d = ⟨d.year, d.month + 1, d.day⟩ := by
      simp [nextMonth, h12]
    rw [h1, rata, rata]
    show daysBeforeYear d.year + daysBeforeMonth d.year (d.month + 1) + d.day = _
    rw [daysBeforeMonth_succ d.year d.month hm1]
    omega

/-- For a first-of-month date, `prevDay (nextMonth d)` is the last day of
`d`'s month (this is `next_month - timedelta(days=1)` in the source). -/
theorem prevDay_nextMonth (d : Date) (hd : d.day = 1)
    (hm1 : 1 ≤ d.month) (hm2 : d.month ≤ 12) (hy : 1 ≤ d.year) :
    prevDay (nextMonth d) = ⟨d.year, d.month, daysInMonth d.year d.month⟩ := by
  by_cases h12 : d.month = 12
  · have h1 : nextMonth d = ⟨d.year + 1, 1, 1⟩ := by simp [nextMonth, h12, hd]
    rw [h1]
    have h2 : prevDay ⟨d.year + 1, 1, 1⟩ = ⟨d.year + 1 - 1, 12, 31⟩ := by
      simp [prevDay]
    rw [h2, h12]
    have h3 : daysInMonth d.year 12 = 31 := rfl
    simp [h3]
  · have h1 : nextMonth d = ⟨d.year, d.month + 1, 1⟩ := by
      simp [nextMonth, h12, hd]
    rw [h1]
    have hgt : 1 < d.month + 1 := by omega
    simp [prevDay, hgt, Nat.add_sub_cancel]

theorem rata_day_le (y m d d' : Nat) (h : d ≤ d') :
    rata ⟨y, m, d⟩ ≤ rata ⟨y, m, d'⟩ := by
  unfold rata; simp; omega

theorem rata_maxDate (a b : Date) :
    rata (maxDate a b) = max (rata a) (rata b) := by
  unfold maxDate; split <;> omega

theorem rata_minDate (a b : Date) :
    rata (minDate a b) = min (rata a) (rata b) := by
  unfold minDate; split <;> omega

/-! ## Partition planner (`ParallelExecutor._detect_partitions` loop) -/

/-- One partition produced by `_detect_partitions`.  The Python dict keys
are `"start"` and `"end"`; `end` is reserved in Lean so the second field
is called `stop`. -/
structure Partition where
  start : Date
  stop : Date
  deriving DecidableEq, Repr

/-- The `while current <= end` loop of `_detect_partitions`, with an
explicit fuel parameter bounding the number of iterations (the wrapper
`monthlyPartitions` passes fuel that is proved sufficient). -/
def partitionLoop (start stop : Date) : Nat → Date → List Partition
  | 0, _ => []
  | fuel + 1, current =>
    if dle current stop then
      let next_month := nextMonth current
      let partition_end := minDate (prevDay next_month) stop
      let partition_start := maxDate current start
      ⟨partition_start, partition_end⟩ ::
        partitionLoop start stop fuel next_month
    else []

/-- The monthly partition list for a detected range, mirroring
`_detect_partitions` from `current = start.replace(day=1)` onwards. -/
def monthlyPartitions (start stop : Date) : List Partition :=
  partitionLoop start stop (rata stop + 1) (firstOfMonth start)

/-- Consecutive partitions are adjacent: each one starts on the day after
the previous one ends. -/
def Chained : List Partition → Prop
  | [] => True
  | [_] => True
  | p :: q :: rest => (rata q.start = rata p.stop + 1) ∧ Chained (q :: rest)

theorem chained_cons {p : Partition} {ps : List Partition}
    (h : Chained (p :: ps)) : Chained ps := by
  cases ps with
  | nil => trivial
  | cons q rest => exact h.2

theorem partitionLoop_nil_of_past (start stop c : Date) (fuel : Nat)
    (h : rata stop < rata c) : partitionLoop start stop fuel c = [] := by
  cases fuel with
  | zero => rfl
  | succ f =>
    unfold partitionLoop
    rw [if_neg]
    simp only [dle, decide_eq_true_eq]
    omega

/-- Bundle of structural facts about a partition list emitted by the loop
starting at cursor `c`: nonempty; first start is `max(current, start)`;
last end is `stop` (by day count); consecutive partitions adjacent; each
partition nonempty and inside `[start, stop]`; non-first starts are firsts
of months; non-last ends are month-ends. -/
def LoopSpec (start stop c : Date) (ps : List Partition) : Prop :=
  ps ≠ [] ∧
  (∀ h : ps ≠ [], (ps.head h).start = maxDate c start) ∧
  (∀ h : ps ≠ [], rata ((ps.getLast h).stop) = rata stop) ∧
  Chained ps ∧
  (∀ p ∈ ps, rata p.start ≤ rata p.stop) ∧
  (∀ p ∈ ps, rata start ≤ rata p.start ∧ rata p.stop ≤ rata stop) ∧
  (∀ p ∈ ps.tail, p.start.day = 1) ∧
  (∀ p ∈ ps.dropLast, p.stop.day = daysInMonth p.stop.year p.stop.month)

/-- Main loop invariant for `partitionLoop`: starting from a
first-of-month cursor `c` that has not passed `stop`, the loop emits a
partition list satisfying `LoopSpec`. -/
theorem partitionLoop_spec :
    ∀ (fuel : Nat) (start stop c : Date),
      rata start ≤ rata stop →
      c.day = 1 → 1 ≤ c.month → c.month ≤ 12 → 1 ≤ c.year →
      rata c ≤ rata stop →
      rata (maxDate c start) ≤
        rata ⟨c.year, c.month, daysInMonth c.year c.month⟩ →
      rata start ≤ rata (maxDate c start) →
      rata stop + 1 ≤ fuel + rata c →
      LoopSpec start stop c (partitionLoop start stop fuel c) := by
  intro fuel
  induction fuel with
  | zero =>
    intro start stop c hss hcd hcm1 hcm2 hcy hguard hmax1 hmax2 hfuel
    omega
  | succ f ih =>
    intro start stop c hss hcd hcm1 hcm2 hcy hguard hmax1 hmax2 hfuel
    have hdle : dle c stop = true := by simp [dle]; omega
    have hdim1 : 28 ≤ daysInMonth c.year c.month := daysInMonth_pos _ _
    have hnm : rata (nextMonth c) = rata c + daysInMonth c.year c.month :=
      rata_nextMonth c hcy hcm1 hcm2
    have hpd : prevDay (nextMonth c) =
        ⟨c.year, c.month, daysInMonth c.year c.month⟩ :=
      prevDay_nextMonth c hcd hcm1 hcm2 hcy
    have hme : rata (⟨c.year, c.month, daysInMonth c.year c.month⟩ : Date) =
        rata c + daysInMonth c.year c.month - 1 := by
      have h1 : rata c =
          daysBeforeYear c.year + daysBeforeMonth c.year c.month + c.day := rfl
      have h2 : rata (⟨c.year, c.month, daysInMonth c.year c.month⟩ : Date) =
          daysBeforeYear c.year + daysBeforeMonth c.year c.month +
            daysInMonth c.year c.month := rfl
      omega
    have hloop : partitionLoop start stop (f + 1) c =
        ⟨maxDate c start, minDate (prevDay (nextMonth c)) stop⟩ ::
          partitionLoop start stop f (nextMonth c) := by
      rw [partitionLoop, if_pos hdle]
    by_cases hsplit :
        rata stop ≤ rata (⟨c.year, c.month, daysInMonth c.year c.month⟩ : Date)
    -- final partition: the month-end is clipped to `stop` and the loop ends
    case pos =>
      have hrest : partitionLoop start stop f (nextMonth c) = [] := by
        apply partitionLoop_nil_of_past
        omega
      have hps : partitionLoop start stop (f + 1) c =
          [⟨maxDate c start, minDate (prevDay (nextMonth c)) stop⟩] := by
        rw [hloop, hrest]
      rw [hps]
      have hpend : rata (minDate (prevDay (nextMonth c)) stop) = rata stop := by
        rw [hpd, rata_minDate]
        omega
      unfold LoopSpec
      refine ⟨by simp, ?_, ?_, ?_, ?_, ?_, ?_, ?_⟩
      · intro h; rfl
      · intro h; simpa using hpend
      · trivial
      · intro p hp
        simp only [List.mem_singleton] at hp
        subst hp
        rw [rata_maxDate] at hmax1 ⊢
        simp only [hpend]
        omega
      · intro p hp
        simp only [List.mem_singleton] at hp
        subst hp
        rw [rata_maxDate] at hmax1 ⊢
        simp only [hpend]
        omega
      · intro p hp; simp at hp
      · intro p hp; simp at hp
    -- the month-end precedes `stop`: emit a full month and continue
    case neg =>
      push_neg at hsplit
      set me : Date := ⟨c.year, c.month, daysInMonth c.year c.month⟩ with hme_def
      have hpend : minDate (prevDay (nextMonth c)) stop = me := by
        rw [hpd, minDate, if_neg]
        omega
      have hc' : nextMonth c = ⟨c.year + 1, 1, c.day⟩ ∨
          nextMonth c = ⟨c.year, c.month + 1, c.day⟩ := by
        unfold nextMonth
        split
        · exact Or.inl rfl
        · exact Or.inr rfl
      have hcd' : (nextMonth c).day = 1 := by
        rcases hc' with h | h <;> rw [h] <;> exact hcd
      have hcm1' : 1 ≤ (nextMonth c).month := by
        rcases hc' with h | h <;> rw [h] <;> simp <;> omega
      have hcm2' : (nextMonth c).month ≤ 12 := by
        unfold nextMonth
        split
        · simp
        · simp; omega
      have hcy' : 1 ≤ (nextMonth c).year := by
        rcases hc' with h | h <;> rw [h] <;> simp <;> omega
      have hguard' : rata (nextMonth c) ≤ rata stop := by omega
      have hstartlt : rata start < rata (nextMonth c) := by
        rw [rata_maxDate] at hmax1
        omega
      have hmaxc' : maxDate (nextMonth c) start = nextMonth c := by
        unfold maxDate
        rw [if_neg]
        omega
      have hmax1' : rata (maxDate (nextMonth c) start) ≤
          rata ⟨(nextMonth c).year, (nextMonth c).month,
            daysInMonth (nextMonth c).year (nextMonth c).month⟩ := by
        rw [hmaxc']
        have h1 : rata (nextMonth c) =
            daysBeforeYear (nextMonth c).year +
              daysBeforeMonth (nextMonth c).year (nextMonth c).month +
              (nextMonth c).day := rfl
        have h2 : rata (⟨(nextMonth c).year, (nextMonth c).month,
            daysInMonth (nextMonth c).year (nextMonth c).month⟩ : Date) =
            daysBeforeYear (nextMonth c).year +
              daysBeforeMonth (nextMonth c).year (nextMonth c).month +
              daysInMonth (nextMonth c).year (nextMonth c).month := rfl
        have h3 := daysInMonth_pos (nextMonth c).year (nextMonth c).month
        omega
      have hmax2' : rata start ≤ rata (maxDate (nextMonth c) start) := by
        rw [rata_maxDate]; omega
      have hfuel' : rata stop + 1 ≤ f + rata (nextMonth c) := by omega
      have ihspec := ih start stop (nextMonth c) hss hcd' hcm1' hcm2' hcy'
        hguard' hmax1' hmax2' hfuel'
      rw [hloop, hpend]
      cases hcons : partitionLoop start stop f (nextMonth c) with
      | nil =>
        rw [hcons] at ihspec
        exact absurd rfl ihspec.1
      | cons q rest =>
        rw [hcons] at ihspec
        obtain ⟨ihne, ihhead, ihlast, ihchain, ihfit, ihrange, ihtail, ihdrop⟩ :=
          ihspec
        have hq : q.start = maxDate (nextMonth c) start := by
          have h1 := ihhead (by simp)
          simpa using h1
        unfold LoopSpec
        refine ⟨by simp, ?_, ?_, ?_, ?_, ?_, ?_, ?_⟩
        · intro h; rfl
        · intro h
          rw [List.getLast_cons (by simp : (q :: rest) ≠ [])]
          exact ihlast (by simp)
        · refine ⟨?_, ihchain⟩
          show rata q.start = rata me + 1
          rw [hq, hmaxc', hnm]
          omega
        · intro p hp
          rcases List.mem_cons.mp hp with h | h
          · subst h
            show rata (maxDate c start) ≤ rata me
            exact hmax1
          · exact ihfit p h
        · intro p hp
          rcases List.mem_cons.mp hp with h | h
          · subst h
            refine ⟨hmax2, ?_⟩
            show rata me ≤ rata stop
            omega
          · exact ihrange p h
        · intro p hp
          simp only [List.tail_cons] at hp
          rcases List.mem_cons.mp hp with h | h
          · subst h
            rw [hq, hmaxc']
            exact hcd'
          · exact ihtail p (by simpa using h)
        · intro p hp
          rw [List.dropLast_cons_of_ne_nil (by simp : (q :: rest) ≠ [])] at hp
          rcases List.mem_cons.mp hp with h | h
          · subst h
            rfl
          · exact ihdrop p h

/-- `max(current, start)` at the first loop iteration is literally `start`
(`current = start.replace(day=1)` is at most `start`, and on equality the
two dates coincide). -/
theorem maxDate_firstOfMonth (start : Date) (hv : start.Valid) :
    maxDate (firstOfMonth start) start = start := by
  unfold maxDate firstOfMonth
  split
  · rfl
  · rename_i h
    have h1 : rata (⟨start.year, start.month, 1⟩ : Date) ≤ rata start :=
      rata_day_le start.year start.month 1 start.day hv.2.2.2.2.1
    have h2 : rata (⟨start.year, start.month, 1⟩ : Date) =
        daysBeforeYear start.year + daysBeforeMonth start.year start.month + 1 :=
      rfl
    have h3 : rata start =
        daysBeforeYear start.year + daysBeforeMonth start.year start.month +
          start.day := rfl
    have hd : start.day = 1 := by omega
    cases start
    simp_all

/-- Adjacent nonempty partitions are pairwise strictly ordered (hence
chronologically ordered and pairwise disjoint). -/
theorem chained_pairwise :
    ∀ ps : List Partition, Chained ps →
      (∀ p ∈ ps, rata p.start ≤ rata p.stop) →
      List.Pairwise (fun p q => rata p.stop < rata q.start) ps := by
  intro ps
  induction ps with
  | nil => intro _ _; simp
  | cons p rest ih =>
    intro hch hne
    cases rest with
    | nil => simp
    | cons q rest2 =>
      obtain ⟨hadj, hch'⟩ := hch
      have hpw := ih hch' (fun r hr => hne r (List.mem_cons_of_mem _ hr))
      constructor
      · intro r hr
        rcases List.mem_cons.mp hr with h | h
        · subst h; omega
        · have h1 := (List.pairwise_cons.mp hpw).1 r h
          have h2 := hne q (by simp)
          omega
      · exact hpw

/-- A chained nonempty partition list covers exactly the day interval from
its first start to its last end: no gap and no overlap. -/
theorem chained_covers :
    ∀ (rest : List Partition) (p : Partition) (b : Nat),
      Chained (p :: rest) →
      (∀ q ∈ p :: rest, rata q.start ≤ rata q.stop) →
      rata (((p :: rest).getLast (by simp)).stop) = b →
      ∀ n, (rata p.start ≤ n ∧ n ≤ b) ↔
        ∃ q ∈ p :: rest, rata q.start ≤ n ∧ n ≤ rata q.stop := by
  intro rest
  induction rest with
  | nil =>
    intro p b _ hne hlast n
    simp only [List.getLast_singleton] at hlast
    constructor
    · intro hn
      exact ⟨p, by simp, by omega⟩
    · intro ⟨q, hq, hn⟩
      simp only [List.mem_singleton] at hq
      subst hq
      omega
  | cons q rest2 ih =>
    intro p b hch hne hlast n
    obtain ⟨hadj, hch'⟩ := hch
    have hlast' : rata (((q :: rest2).getLast (by simp)).stop) = b := by
      rw [← hlast]
      rw [List.getLast_cons (by simp : (q :: rest2) ≠ [])]
    have hne' : ∀ r ∈ q :: rest2, rata r.start ≤ rata r.stop :=
      fun r hr => hne r (List.mem_cons_of_mem _ hr)
    have hiff := ih q b hch' hne' hlast'
    have hqb : rata q.start ≤ b := by
      have h1 := (hiff (rata q.start)).mpr
        ⟨q, by simp, le_refl _, hne q (by simp)⟩
      exact h1.2
    have hpp := hne p (by simp)
    constructor
    · intro hn
      by_cases hcase : n ≤ rata p.stop
      · exact ⟨p, by simp, hn.1, hcase⟩
      · have h1 := (hiff n).mp ⟨by omega, hn.2⟩
        obtain ⟨r, hr, hrn⟩ := h1
        exact ⟨r, List.mem_cons_of_mem _ hr, hrn⟩
    · intro ⟨r, hr, hrn⟩
      rcases List.mem_cons.mp hr with h | h
      · subst h
        constructor
        · exact hrn.1
        · omega
      · have h1 := (hiff n).mpr ⟨r, h, hrn⟩
        constructor
        · omega
        · exact h1.2

/-- Full structural specification of `monthlyPartitions` for a detected
range strictly longer than a month boundary allows collapsing. -/
theorem monthlyPartitions_spec (start stop : Date) (hv : start.Valid)
    (hss : rata start ≤ rata stop) :
    LoopSpec start stop (firstOfMonth start) (monthlyPartitions start stop) := by
  have hd1 : start.day ≥ 1 := hv.2.2.2.2.1
  have hc0 : rata (firstOfMonth start) ≤ rata start := by
    have := rata_day_le start.year start.month 1 start.day hd1
    exact this
  apply partitionLoop_spec
  · exact hss
  · rfl
  · exact hv.2.2.1
  · exact hv.2.2.2.1
  · exact hv.1
  · omega
  · rw [maxDate_firstOfMonth start hv]
    show rata start ≤
      rata ⟨start.year, start.month, daysInMonth start.year start.month⟩
    exact rata_day_le start.year start.month start.day _ hv.2.2.2.2.2
  · rw [maxDate_firstOfMonth start hv]
  · omega

theorem monthlyPartitions_head (start stop : Date) (hv : start.Valid)
    (hss : rata start ≤ rata stop) :
    ∀ h, ((monthlyPartitions start stop).head h).start = start := by
  intro h
  have hspec := monthlyPartitions_spec start stop hv hss
  rw [hspec.2.1 h, maxDate_firstOfMonth start hv]

/-! ## Regular-expression model

The executor uses two fixed patterns (with `re.IGNORECASE`):

* `BETWEEN\s+'(\d{4}-\d{2}-\d{2})'\s+AND\s+'(\d{4}-\d{2}-\d{2})'`
* `(>=\s*)'(\d{4}-\d{2}-\d{2})'(\s+AND\s+\w+\s*<=\s*)'(\d{4}-\d{2}-\d{2})'`

They are embedded as deterministic scanners over `List Char`.  Greedy
`\s+`/`\s*`/`\w+` runs followed by a character outside the class are
deterministic (backtracking cannot help, because giving back a character
of the class never lets the next pattern element match), so maximal munch
is faithful.  Character classes are modelled over ASCII. -/

/-- ASCII `\s`. -/
def pyIsSpace (c : Char) : Bool :=
  c = ' ' ∨ c = Char.ofNat 9 ∨ c = Char.ofNat 10 ∨ c = Char.ofNat 11 ∨
    c = Char.ofNat 12 ∨ c = Char.ofNat 13

/-- ASCII `\d`. -/
def pyIsDigit (c : Char) : Bool := 48 ≤ c.toNat ∧ c.toNat ≤ 57

/-- ASCII `\w`. -/
def pyIsWord (c : Char) : Bool :=
  (65 ≤ c.toNat ∧ c.toNat ≤ 90) ∨ (97 ≤ c.toNat ∧ c.toNat ≤ 122) ∨
    (48 ≤ c.toNat ∧ c.toNat ≤ 57) ∨ c = Char.ofNat 95

/-- The single-quote character (written by code point to keep source
lexing simple). -/
def quoteChar : Char := Char.ofNat 39

/-- Greedy `\s+`: at least one whitespace character, maximal run. -/
def takeSpaces1 (cs : List Char) : Option (List Char × List Char) :=
  if cs.takeWhile pyIsSpace = [] then none
  else some (cs.takeWhile pyIsSpace, cs.dropWhile pyIsSpace)

/-- Greedy `\s*`: maximal (possibly empty) whitespace run. -/
def takeSpaces0 (cs : List Char) : List Char × List Char :=
  (cs.takeWhile pyIsSpace, cs.dropWhile pyIsSpace)

/-- Greedy `\w+`. -/
def takeWord1 (cs : List Char) : Option (List Char × List Char) :=
  if cs.takeWhile pyIsWord = [] then none
  else some (cs.takeWhile pyIsWord, cs.dropWhile pyIsWord)

/-- Case-insensitive literal (ASCII case folding, as the patterns only
contain ASCII letters). -/
def matchLitCI : List Char → List Char → Option (List Char × List Char)
  | [], cs => some ([], cs)
  | _ :: _, [] => none
  | l :: ls, c :: cs =>
    if c.toLower = l.toLower then
      (matchLitCI ls cs).map (fun p => (c :: p.1, p.2))
    else none

/-- Single mandatory character. -/
def matchCh (ch : Char) : List Char → Option (List Char × List Char)
  | [] => none
  | c :: rest => if c = ch then some ([c], rest) else none

/-- Exactly `n` digits. -/
def matchDigits : Nat → List Char → Option (List Char × List Char)
  | 0, cs => some ([], cs)
  | _ + 1, [] => none
  | n + 1, c :: cs =>
    if pyIsDigit c then
      (matchDigits n cs).map (fun p => (c :: p.1, p.2))
    else none

/-- `\d{4}-\d{2}-\d{2}`. -/
def matchDatePat (cs : List Char) : Option (List Char × List Char) := do
  let (y, r1) ← matchDigits 4 cs
  let (h1, r2) ← matchCh (Char.ofNat 45) r1
  let (mo, r3) ← matchDigits 2 r2
  let (h2, r4) ← matchCh (Char.ofNat 45) r3
  let (d, r5) ← matchDigits 2 r4
  pure (y ++ h1 ++ mo ++ h2 ++ d, r5)

theorem takeSpaces1_sound {cs a r : List Char}
    (h : takeSpaces1 cs = some (a, r)) : a ++ r = cs ∧ a ≠ [] := by
  unfold takeSpaces1 at h
  split at h
  · exact absurd h (by simp)
  · rename_i hne
    simp only [Option.some_inj, Prod.mk.injEq] at h
    obtain ⟨ha, hr⟩ := h
    subst ha; subst hr
    exact ⟨List.takeWhile_append_dropWhile _ _, hne⟩

theorem takeSpaces0_sound {cs a r : List Char}
    (h : takeSpaces0 cs = (a, r)) : a ++ r = cs := by
  unfold takeSpaces0 at h
  simp only [Prod.mk.injEq] at h
  obtain ⟨ha, hr⟩ := h
  subst ha; subst hr
  exact List.takeWhile_append_dropWhile _ _

theorem takeSpaces0_append (cs : List Char) :
    (takeSpaces0 cs).1 ++ (takeSpaces0 cs).2 = cs :=
  List.takeWhile_append_dropWhile _ _

theorem takeWord1_sound {cs a r : List Char}
    (h : takeWord1 cs = some (a, r)) : a ++ r = cs ∧ a ≠ [] := by
  unfold takeWord1 at h
  split at h
  · exact absurd h (by simp)
  · rename_i hne
    simp only [Option.some_inj, Prod.mk.injEq] at h
    obtain ⟨ha, hr⟩ := h
    subst ha; subst hr
    exact ⟨List.takeWhile_append_dropWhile _ _, hne⟩

theorem matchLitCI_sound :
    ∀ {lit cs a r : List Char}, matchLitCI lit cs = some (a, r) →
      a ++ r = cs ∧ a.length = lit.length := by
  intro lit
  induction lit with
  | nil =>
    intro cs a r h
    simp only [matchLitCI, Option.some_inj, Prod.mk.injEq] at h
    obtain ⟨ha, hr⟩ := h
    subst ha; subst hr
    exact ⟨rfl, rfl⟩
  | cons l ls ih =>
    intro cs a r h
    cases cs with
    | nil =>
      have hnone : matchLitCI (l :: ls) [] = none := rfl
      rw [hnone] at h
      exact absurd h (by simp)
    | cons c cs' =>
      by_cases hc : c.toLower = l.toLower
      · have heq2 : matchLitCI (l :: ls) (c :: cs') =
            (matchLitCI ls cs').map (fun p => (c :: p.1, p.2)) := by
          simp [matchLitCI, hc]
        rw [heq2] at h
        cases h1 : matchLitCI ls cs' with
        | none => rw [h1] at h; exact absurd h (by simp)
        | some p =>
          rw [h1] at h
          simp only [Option.map, Option.some_inj, Prod.mk.injEq] at h
          obtain ⟨hp1, hp2⟩ := ih h1
          obtain ⟨ha, hr⟩ := h
          subst ha; subst hr
          constructor
          · simp [hp1]
          · simp [hp2]
      · have heq2 : matchLitCI (l :: ls) (c :: cs') = none := by
          simp [matchLitCI, hc]
        rw [heq2] at h
        exact absurd h (by simp)

theorem matchCh_sound {ch : Char} {cs a r : List Char}
    (h : matchCh ch cs = some (a, r)) : a ++ r = cs ∧ a.length = 1 := by
  cases cs with
  | nil =>
    have hnone : matchCh ch [] = none := rfl
    rw [hnone] at h
    exact absurd h (by simp)
  | cons c rest =>
    by_cases hc : c = ch
    · have heq2 : matchCh ch (c :: rest) = some ([c], rest) := by
        simp [matchCh, hc]
      rw [heq2] at h
      simp only [Option.some_inj, Prod.mk.injEq] at h
      obtain ⟨ha, hr⟩ := h
      subst ha; subst hr
      exact ⟨rfl, rfl⟩
    · have heq2 : matchCh ch (c :: rest) = none := by
        simp [matchCh, hc]
      rw [heq2] at h
      exact absurd h (by simp)

theorem matchDigits_sound :
    ∀ {n : Nat} {cs a r : List Char}, matchDigits n cs = some (a, r) →
      a ++ r = cs ∧ a.length = n := by
  intro n
  induction n with
  | zero =>
    intro cs a r h
    simp only [matchDigits, Option.some_inj, Prod.mk.injEq] at h
    obtain ⟨ha, hr⟩ := h
    subst ha; subst hr
    exact ⟨rfl, rfl⟩
  | succ k ih =>
    intro cs a r h
    cases cs with
    | nil =>
      have hnone : matchDigits (k + 1) [] = none := rfl
      rw [hnone] at h
      exact absurd h (by simp)
    | cons c cs' =>
      by_cases hc : pyIsDigit c = true
      · have heq2 : matchDigits (k + 1) (c :: cs') =
            (matchDigits k cs').map (fun p => (c :: p.1, p.2)) := by
          simp [matchDigits, hc]
        rw [heq2] at h
        cases h1 : matchDigits k cs' with
        | none => rw [h1] at h; exact absurd h (by simp)
        | some p =>
          rw [h1] at h
          simp only [Option.map, Option.some_inj, Prod.mk.injEq] at h
          obtain ⟨hp1, hp2⟩ := ih h1
          obtain ⟨ha, hr⟩ := h
          subst ha; subst hr
          constructor
          · simp [hp1]
          · simp [hp2]
      · have heq2 : matchDigits (k + 1) (c :: cs') = none := by
          simp [matchDigits, hc]
        rw [heq2] at h
        exact absurd h (by simp)

theorem matchDatePat_sound {cs a r : List Char}
    (h : matchDatePat cs = some (a, r)) : a ++ r = cs ∧ a.length = 10 := by
  unfold matchDatePat at h
  simp only [bind, Option.bind_eq_some, Option.pure_def, Option.some_inj] at h
  obtain ⟨⟨y, r1⟩, hy, ⟨⟨d1, r2⟩, hd1, ⟨⟨mo, r3⟩, hmo, ⟨⟨d2, r4⟩, hd2,
    ⟨⟨d, r5⟩, hd, heq⟩⟩⟩⟩⟩ := h
  dsimp only at hd1 hmo hd2 hd heq
  obtain ⟨hy1, hy2⟩ := matchDigits_sound hy
  obtain ⟨hh1, hh2⟩ := matchCh_sound hd1
  obtain ⟨hm1, hm2⟩ := matchDigits_sound hmo
  obtain ⟨hh3, hh4⟩ := matchCh_sound hd2
  obtain ⟨hdd1, hdd2⟩ := matchDigits_sound hd
  simp only [Prod.mk.injEq] at heq
  obtain ⟨ha, hr⟩ := heq
  subst ha; subst hr
  constructor
  · rw [← hy1, ← hh1, ← hm1, ← hh3, ← hdd1]
    simp [List.append_assoc]
  · simp [hy2, hh2, hm2, hh4, hdd2]

/-- A successful match of the BETWEEN pattern at the head of the input:
the matched span, the two captured date literals, and the remainder. -/
structure BetweenMatch where
  matched : List Char
  d1 : List Char
  d2 : List Char
  rest : List Char
  deriving DecidableEq, Repr

/-- A successful match of the `>= ... AND <col> <= ...` pattern at the
head of the input: the matched span, the captured groups `(>=\s*)` and
`(\s+AND\s+\w+\s*<=\s*)`, the two date literals, and the remainder. -/
structure RangeMatch where
  matched : List Char
  g1 : List Char
  d1 : List Char
  g3 : List Char
  d2 : List Char
  rest : List Char
  deriving DecidableEq, Repr

/-- A quoted date literal `'(\d{4}-\d{2}-\d{2})'`: matched span,
captured date text, remainder. -/
structure QDate where
  matched : List Char
  d : List Char
  rest : List Char
  deriving DecidableEq, Repr

def matchQuotedDate (cs : List Char) : Option QDate := do
  let (q1, r1) ← matchCh quoteChar cs
  let (d, r2) ← matchDatePat r1
  let (q2, r3) ← matchCh quoteChar r2
  pure ⟨q1 ++ d ++ q2, d, r3⟩

/-- The middle group `(\s+AND\s+\w+\s*<=\s*)` of the range pattern:
captured text and remainder. -/
def matchRangeMid (cs : List Char) : Option (List Char × List Char) := do
  let (s2, r6) ← takeSpaces1 cs
  let (an, r7) ← matchLitCI "AND".toList r6
  let (s3, r8) ← takeSpaces1 r7
  let (w, r9) ← takeWord1 r8
  let (s4, r10) := takeSpaces0 r9
  let (le, r11) ← matchLitCI "<=".toList r10
  let (s5, r12) := takeSpaces0 r11
  pure (s2 ++ an ++ s3 ++ w ++ s4 ++ le ++ s5, r12)

/-- Try the BETWEEN pattern at the start of `cs`. -/
def matchBetweenAt (cs : List Char) : Option BetweenMatch := do
  let (kw, r1) ← matchLitCI "BETWEEN".toList cs
  let (s1, r2) ← takeSpaces1 r1
  let qd1 ← matchQuotedDate r2
  let (s2, r3) ← takeSpaces1 qd1.rest
  let (an, r4) ← matchLitCI "AND".toList r3
  let (s3, r5) ← takeSpaces1 r4
  let qd2 ← matchQuotedDate r5
  pure ⟨kw ++ s1 ++ qd1.matched ++ s2 ++ an ++ s3 ++ qd2.matched,
        qd1.d, qd2.d, qd2.rest⟩

/-- Try the `>= ... AND <col> <= ...` pattern at the start of `cs`. -/
def matchRangeAt (cs : List Char) : Option RangeMatch := do
  let (ge, r1) ← matchLitCI ">=".toList cs
  let (s1, r2) := takeSpaces0 r1
  let qd1 ← matchQuotedDate r2
  let (g3, r3) ← matchRangeMid qd1.rest
  let qd2 ← matchQuotedDate r3
  pure ⟨ge ++ s1 ++ qd1.matched ++ g3 ++ qd2.matched,
        ge ++ s1, qd1.d, g3, qd2.d, qd2.rest⟩

theorem matchQuotedDate_sound {cs : List Char} {m : QDate}
    (h : matchQuotedDate cs = some m) :
    m.matched ++ m.rest = cs ∧ m.matched ≠ [] := by
  unfold matchQuotedDate at h
  simp only [bind, Option.bind_eq_some, Option.pure_def, Option.some_inj] at h
  obtain ⟨⟨q1, r1⟩, hq1, ⟨⟨d, r2⟩, hd, ⟨⟨q2, r3⟩, hq2, heq⟩⟩⟩ := h
  dsimp only at hd hq2 heq
  obtain ⟨hq11, hq12⟩ := matchCh_sound hq1
  obtain ⟨hd1, _⟩ := matchDatePat_sound hd
  obtain ⟨hq21, _⟩ := matchCh_sound hq2
  cases heq
  constructor
  · simp only [List.append_assoc]
    rw [hq21, hd1, hq11]
  · intro hcontra
    have hq1len : q1.length = 1 := hq12
    have : q1 = [] := by
      have := congrArg List.length hcontra
      simp at this
      exact this.1
    rw [this] at hq1len
    simp at hq1len

theorem matchRangeMid_sound {cs : List Char} {g r : List Char}
    (h : matchRangeMid cs = some (g, r)) : g ++ r = cs := by
  unfold matchRangeMid at h
  simp only [bind, Option.bind_eq_some, Option.pure_def, Option.some_inj] at h
  obtain ⟨⟨s2, r6⟩, hs2, ⟨⟨an, r7⟩, han, ⟨⟨s3, r8⟩, hs3,
    ⟨⟨w, r9⟩, hw, heq⟩⟩⟩⟩ := h
  dsimp only at han hs3 hw heq
  obtain ⟨⟨le, r11⟩, hle, heq2⟩ := heq
  dsimp only at hle heq2
  obtain ⟨hs21, _⟩ := takeSpaces1_sound hs2
  obtain ⟨han1, _⟩ := matchLitCI_sound han
  obtain ⟨hs31, _⟩ := takeSpaces1_sound hs3
  obtain ⟨hw1, _⟩ := takeWord1_sound hw
  obtain ⟨hle1, _⟩ := matchLitCI_sound hle
  simp only [Prod.mk.injEq] at heq2
  obtain ⟨hg, hr⟩ := heq2
  subst hg; subst hr
  simp only [List.append_assoc]
  rw [takeSpaces0_append r11, hle1, takeSpaces0_append r9, hw1, hs31, han1,
    hs21]

theorem matchBetweenAt_sound {cs : List Char} {m : BetweenMatch}
    (h : matchBetweenAt cs = some m) :
    m.matched ++ m.rest = cs ∧ m.matched ≠ [] := by
  unfold matchBetweenAt at h
  simp only [bind, Option.bind_eq_some, Option.pure_def, Option.some_inj] at h
  obtain ⟨⟨kw, r1⟩, hkw, ⟨⟨s1, r2⟩, hs1, ⟨qd1, hqd1, ⟨⟨s2, r3⟩, hs2,
    ⟨⟨an, r4⟩, han, ⟨⟨s3, r5⟩, hs3, ⟨qd2, hqd2, heq⟩⟩⟩⟩⟩⟩⟩ := h
  dsimp only at hs1 hqd1 hs2 han hs3 hqd2 heq
  obtain ⟨hkw1, hkw2⟩ := matchLitCI_sound hkw
  obtain ⟨hs11, _⟩ := takeSpaces1_sound hs1
  obtain ⟨hqd11, _⟩ := matchQuotedDate_sound hqd1
  obtain ⟨hs21, _⟩ := takeSpaces1_sound hs2
  obtain ⟨han1, _⟩ := matchLitCI_sound han
  obtain ⟨hs31, _⟩ := takeSpaces1_sound hs3
  obtain ⟨hqd21, _⟩ := matchQuotedDate_sound hqd2
  cases heq
  constructor
  · simp only [List.append_assoc]
    rw [hqd21, hs31, han1, hs21, hqd11, hs11, hkw1]
  · intro hcontra
    have hkwlen : kw.length = 7 := hkw2
    have : kw = [] := by
      have := congrArg List.length hcontra
      simp at this
      exact this.1
    rw [this] at hkwlen
    simp at hkwlen

theorem matchRangeAt_sound {cs : List Char} {m : RangeMatch}
    (h : matchRangeAt cs = some m) :
    m.matched ++ m.rest = cs ∧ m.matched ≠ [] := by
  unfold matchRangeAt at h
  simp only [bind, Option.bind_eq_some, Option.pure_def, Option.some_inj] at h
  obtain ⟨⟨ge, r1⟩, hge, ⟨qd1, hqd1, ⟨⟨g3, r3⟩, hg3, ⟨qd2, hqd2, heq⟩⟩⟩⟩ := h
  dsimp only at hqd1 hg3 hqd2 heq
  obtain ⟨hge1, hge2⟩ := matchLitCI_sound hge
  obtain ⟨hqd11, _⟩ := matchQuotedDate_sound hqd1
  have hg31 := matchRangeMid_sound hg3
  obtain ⟨hqd21, _⟩ := matchQuotedDate_sound hqd2
  cases heq
  constructor
  · simp only [List.append_assoc]
    rw [hqd21, hg31, hqd11, takeSpaces0_append r1, hge1]
  · intro hcontra
    have hgelen : ge.length = 2 := hge2
    have : ge = [] := by
      have := congrArg List.length hcontra
      simp at this
      exact this.1
    rw [this] at hgelen
    simp at hgelen

theorem matchBetweenAt_rest_lt {cs : List Char} {m : BetweenMatch}
    (h : matchBetweenAt cs = some m) : m.rest.length < cs.length := by
  obtain ⟨happ, hne⟩ := matchBetweenAt_sound h
  have h1 : m.matched.length + m.rest.length = cs.length := by
    rw [← happ]; simp
  have h2 : 0 < m.matched.length := List.length_pos.mpr hne
  omega

theorem matchRangeAt_rest_lt {cs : List Char} {m : RangeMatch}
    (h : matchRangeAt cs = some m) : m.rest.length < cs.length := by
  obtain ⟨happ, hne⟩ := matchRangeAt_sound h
  have : m.matched.length + m.rest.length = cs.length := by
    rw [← happ]; simp
  have : 0 < m.matched.length := List.length_pos.mpr hne
  omega

/-- `re.search` for the BETWEEN pattern: leftmost match. -/
def searchBetween : List Char → Option BetweenMatch
  | [] => none
  | c :: cs =>
    match matchBetweenAt (c :: cs) with
    | some m => some m
    | none => searchBetween cs

/-- `re.search` for the range pattern: leftmost match. -/
def searchRange : List Char → Option RangeMatch
  | [] => none
  | c :: cs =>
    match matchRangeAt (c :: cs) with
    | some m => some m
    | none => searchRange cs

/-- The replacement text `f"BETWEEN '{start}' AND '{end}'"`. -/
def betweenRepl (s e : String) : List Char :=
  "BETWEEN ".toList ++ [quoteChar] ++ s.toList ++ [quoteChar] ++
    " AND ".toList ++ [quoteChar] ++ e.toList ++ [quoteChar]

/-- The replacement text for one range-pattern match under the template
`\g<1>'{start}'\g<3>'{end}'`. -/
def rangeRepl (s e : String) (m : RangeMatch) : List Char :=
  m.g1 ++ [quoteChar] ++ s.toList ++ [quoteChar] ++ m.g3 ++ [quoteChar] ++
    e.toList ++ [quoteChar]

/-- `re.sub` with the BETWEEN pattern: every non-overlapping occurrence is
replaced, scanning left to right.  Structural recursion on an explicit
fuel bound (each step consumes at least one character, so fuel equal to
the input length, supplied by the wrapper below, never runs out). -/
def subBetweenFuel (s e : String) : Nat → List Char → List Char
  | 0, l => l
  | _ + 1, [] => []
  | fuel + 1, c :: cs =>
    match matchBetweenAt (c :: cs) with
    | some m => betweenRepl s e ++ subBetweenFuel s e fuel m.rest
    | none => c :: subBetweenFuel s e fuel cs

def subBetweenAll (s e : String) (l : List Char) : List Char :=
  subBetweenFuel s e l.length l

/-- `re.sub` with the range pattern. -/
def subRangeFuel (s e : String) : Nat → List Char → List Char
  | 0, l => l
  | _ + 1, [] => []
  | fuel + 1, c :: cs =>
    match matchRangeAt (c :: cs) with
    | some m => rangeRepl s e m ++ subRangeFuel s e fuel m.rest
    | none => c :: subRangeFuel s e fuel cs

def subRangeAll (s e : String) (l : List Char) : List Char :=
  subRangeFuel s e l.length l

/-- Positions of the non-overlapping BETWEEN matches found by the
left-to-right scan, as (gap before the match, match length, replacement)
triples. -/
def scanBetweenFuel (s e : String) : Nat → List Char → List (Nat × Nat × List Char)
  | 0, _ => []
  | _ + 1, [] => []
  | fuel + 1, c :: cs =>
    match matchBetweenAt (c :: cs) with
    | some m =>
      (0, m.matched.length, betweenRepl s e) :: scanBetweenFuel s e fuel m.rest
    | none =>
      match scanBetweenFuel s e fuel cs with
      | [] => []
      | (g, len, r) :: ms => (g + 1, len, r) :: ms

def scanBetween (s e : String) (l : List Char) : List (Nat × Nat × List Char) :=
  scanBetweenFuel s e l.length l

/-- Positions of the non-overlapping range-pattern matches. -/
def scanRangeFuel (s e : String) : Nat → List Char → List (Nat × Nat × List Char)
  | 0, _ => []
  | _ + 1, [] => []
  | fuel + 1, c :: cs =>
    match matchRangeAt (c :: cs) with
    | some m =>
      (0, m.matched.length, rangeRepl s e m) :: scanRangeFuel s e fuel m.rest
    | none =>
      match scanRangeFuel s e fuel cs with
      | [] => []
      | (g, len, r) :: ms => (g + 1, len, r) :: ms

def scanRange (s e : String) (l : List Char) : List (Nat × Nat × List Char) :=
  scanRangeFuel s e l.length l

/-- Splicing specification: copy `g` characters verbatim, emit the
replacement in place of the next `len` characters, continue. -/
def spliceGaps : List Char → List (Nat × Nat × List Char) → List Char
  | l, [] => l
  | l, (g, len, r) :: ms => l.take g ++ r ++ spliceGaps (l.drop (g + len)) ms

theorem spliceGaps_shift (c : Char) (cs : List Char) (g len : Nat)
    (r : List Char) (ms : List (Nat × Nat × List Char)) :
    spliceGaps (c :: cs) ((g + 1, len, r) :: ms) =
      c :: spliceGaps cs ((g, len, r) :: ms) := by
  show (c :: cs).take (g + 1) ++ r ++ spliceGaps ((c :: cs).drop (g + 1 + len)) ms =
    c :: (cs.take g ++ r ++ spliceGaps (cs.drop (g + len)) ms)
  have h1 : (c :: cs).take (g + 1) = c :: cs.take g := rfl
  have h2 : (c :: cs).drop (g + 1 + len) = cs.drop (g + len) := by
    have h3 : g + 1 + len = (g + len) + 1 := by omega
    rw [h3]
    rfl
  rw [h1, h2]
  simp

/-- With sufficient fuel, `re.sub` with the BETWEEN pattern equals the
positional splice of its scanned match list: every scanned occurrence is
replaced and characters in the gaps are preserved verbatim. -/
theorem subBetween_splice_fuel (s e : String) :
    ∀ (fuel : Nat) (l : List Char), l.length ≤ fuel →
      subBetweenFuel s e fuel l = spliceGaps l (scanBetweenFuel s e fuel l) := by
  intro fuel
  induction fuel with
  | zero =>
    intro l hl
    have hnil : l = [] := by
      cases l with
      | nil => rfl
      | cons c cs => simp at hl
    subst hnil
    rfl
  | succ k ih =>
    intro l hl
    cases l with
    | nil => rfl
    | cons c cs =>
      show (match matchBetweenAt (c :: cs) with
        | some m => betweenRepl s e ++ subBetweenFuel s e k m.rest
        | none => c :: subBetweenFuel s e k cs) =
        spliceGaps (c :: cs)
          (match matchBetweenAt (c :: cs) with
            | some m =>
              (0, m.matched.length, betweenRepl s e) ::
                scanBetweenFuel s e k m.rest
            | none =>
              match scanBetweenFuel s e k cs with
              | [] => []
              | (g, len, r) :: ms => (g + 1, len, r) :: ms)
      cases h : matchBetweenAt (c :: cs) with
      | some m =>
        obtain ⟨happ, hne⟩ := matchBetweenAt_sound h
        have hlt := matchBetweenAt_rest_lt h
        have hrest : m.rest.length ≤ k := by
          simp only [List.length_cons] at hl hlt
          omega
        show betweenRepl s e ++ subBetweenFuel s e k m.rest =
          (c :: cs).take 0 ++ betweenRepl s e ++
            spliceGaps ((c :: cs).drop (0 + m.matched.length))
              (scanBetweenFuel s e k m.rest)
        have hdrop : (c :: cs).drop (0 + m.matched.length) = m.rest := by
          rw [Nat.zero_add, ← happ]
          exact List.drop_left _ _
        rw [hdrop, ih m.rest hrest]
        simp
      | none =>
        have hcs : subBetweenFuel s e k cs =
            spliceGaps cs (scanBetweenFuel s e k cs) :=
          ih cs (by simp only [List.length_cons] at hl; omega)
        rw [hcs]
        cases hscan : scanBetweenFuel s e k cs with
        | nil => rfl
        | cons gm ms =>
          obtain ⟨g, len, r⟩ := gm
          rw [spliceGaps_shift]

/-- With sufficient fuel, `re.sub` with the range pattern equals the
positional splice of its scanned match list. -/
theorem subRange_splice_fuel (s e : String) :
    ∀ (fuel : Nat) (l : List Char), l.length ≤ fuel →
      subRangeFuel s e fuel l = spliceGaps l (scanRangeFuel s e fuel l) := by
  intro fuel
  induction fuel with
  | zero =>
    intro l hl
    have hnil : l = [] := by
      cases l with
      | nil => rfl
      | cons c cs => simp at hl
    subst hnil
    rfl
  | succ k ih =>
    intro l hl
    cases l with
    | nil => rfl
    | cons c cs =>
      show (match matchRangeAt (c :: cs) with
        | some m => rangeRepl s e m ++ subRangeFuel s e k m.rest
        | none => c :: subRangeFuel s e k cs) =
        spliceGaps (c :: cs)
          (match matchRangeAt (c :: cs) with
            | some m =>
              (0, m.matched.length, rangeRepl s e m) ::
                scanRangeFuel s e k m.rest
            | none =>
              match scanRangeFuel s e k cs with
              | [] => []
              | (g, len, r) :: ms => (g + 1, len, r) :: ms)
      cases h : matchRangeAt (c :: cs) with
      | some m =>
        obtain ⟨happ, hne⟩ := matchRangeAt_sound h
        have hlt := matchRangeAt_rest_lt h
        have hrest : m.rest.length ≤ k := by
          simp only [List.length_cons] at hl hlt
          omega
        show rangeRepl s e m ++ subRangeFuel s e k m.rest =
          (c :: cs).take 0 ++ rangeRepl s e m ++
            spliceGaps ((c :: cs).drop (0 + m.matched.length))
              (scanRangeFuel s e k m.rest)
        have hdrop : (c :: cs).drop (0 + m.matched.length) = m.rest := by
          rw [Nat.zero_add, ← happ]
          exact List.drop_left _ _
        rw [hdrop, ih m.rest hrest]
        simp
      | none =>
        have hcs : subRangeFuel s e k cs =
            spliceGaps cs (scanRangeFuel s e k cs) :=
          ih cs (by simp only [List.length_cons] at hl; omega)
        rw [hcs]
        cases hscan : scanRangeFuel s e k cs with
        | nil => rfl
        | cons gm ms =>
          obtain ⟨g, len, r⟩ := gm
          rw [spliceGaps_shift]

theorem subBetweenAll_eq_splice (s e : String) (l : List Char) :
    subBetweenAll s e l = spliceGaps l (scanBetween s e l) :=
  subBetween_splice_fuel s e l.length l (le_refl _)

theorem subRangeAll_eq_splice (s e : String) (l : List Char) :
    subRangeAll s e l = spliceGaps l (scanRange s e l) :=
  subRange_splice_fuel s e l.length l (le_refl _)

/-! ## `ParallelExecutor._replace_date_range` -/

/-- `_replace_date_range`: substitute the BETWEEN pattern everywhere
(`re.sub` with no count replaces every non-overlapping occurrence); if
that changed nothing, substitute the range pattern instead. -/
def replace_date_range (sql start stop : String) : String :=
  let replaced := String.mk (subBetweenAll start stop sql.toList)
  if replaced ≠ sql then replaced
  else String.mk (subRangeAll start stop sql.toList)

/-- Modelled from the spec ("Only the first matching predicate occurrence
is rewritten"): substitution of the BETWEEN pattern limited to the first
occurrence, as `re.sub(..., count=1)` would do.  Used only to compare the
spec's description with the source behaviour. -/
def subBetweenFirst (s e : String) : List Char → List Char
  | [] => []
  | c :: cs =>
    match matchBetweenAt (c :: cs) with
    | some m => betweenRepl s e ++ m.rest
    | none => c :: subBetweenFirst s e cs

/-- A single-quoted copy of a string (helper for writing SQL literals
without quote characters in the source text). -/
def quoted (s : String) : String :=
  String.mk ([quoteChar] ++ s.toList ++ [quoteChar])

/-- C2 counterexample: on a statement with two matching BETWEEN
predicates, `_replace_date_range` rewrites BOTH occurrences (`re.sub`
with no count), not only the first as the claim states. -/
theorem C2_counterexample :
    replace_date_range
        ("SELECT * FROM t WHERE a BETWEEN " ++ quoted "2024-02-01" ++
          " AND " ++ quoted "2024-03-31" ++ " OR b BETWEEN " ++
          quoted "2024-02-01" ++ " AND " ++ quoted "2024-03-31")
        "2024-01-01" "2024-01-31" =
      ("SELECT * FROM t WHERE a BETWEEN " ++ quoted "2024-01-01" ++
        " AND " ++ quoted "2024-01-31" ++ " OR b BETWEEN " ++
        quoted "2024-01-01" ++ " AND " ++ quoted "2024-01-31") ∧
    String.mk (subBetweenFirst "2024-01-01" "2024-01-31"
        ("SELECT * FROM t WHERE a BETWEEN " ++ quoted "2024-02-01" ++
          " AND " ++ quoted "2024-03-31" ++ " OR b BETWEEN " ++
          quoted "2024-02-01" ++ " AND " ++ quoted "2024-03-31").toList) =
      ("SELECT * FROM t WHERE a BETWEEN " ++ quoted "2024-01-01" ++
        " AND " ++ quoted "2024-01-31" ++ " OR b BETWEEN " ++
        quoted "2024-02-01" ++ " AND " ++ quoted "2024-03-31") ∧
    ("SELECT * FROM t WHERE a BETWEEN " ++ quoted "2024-01-01" ++
        " AND " ++ quoted "2024-01-31" ++ " OR b BETWEEN " ++
        quoted "2024-01-01" ++ " AND " ++ quoted "2024-01-31") ≠
      ("SELECT * FROM t WHERE a BETWEEN " ++ quoted "2024-01-01" ++
        " AND " ++ quoted "2024-01-31" ++ " OR b BETWEEN " ++
        quoted "2024-02-01" ++ " AND " ++ quoted "2024-03-31") := by
  refine ⟨by decide, by decide, by decide⟩

/-- C2 amended: for each partition, the rewrite replaces EVERY occurrence
of the matched date-range pattern (not only the first) with the pattern
text rebuilt from the partition's bounds, and preserves every character
outside the matched occurrences verbatim (the splice form copies the gap
segments `take g` untouched). -/
theorem C2_replace_all_occurrences (sql s e : String) :
    replace_date_range sql s e =
      (if String.mk (spliceGaps sql.toList (scanBetween s e sql.toList)) ≠ sql
       then String.mk (spliceGaps sql.toList (scanBetween s e sql.toList))
       else String.mk (spliceGaps sql.toList (scanRange s e sql.toList))) := by
  unfold replace_date_range
  rw [subBetweenAll_eq_splice, subRangeAll_eq_splice]

/-! ## Date parsing and formatting (`datetime.strptime` / `strftime`) -/

def digitVal (c : Char) : Nat := c.toNat - 48

def natOfDigits (l : List Char) : Nat :=
  l.foldl (fun a c => a * 10 + digitVal c) 0

/-- `datetime.strptime(text, "%Y-%m-%d")` on a `\d{4}-\d{2}-\d{2}` capture:
builds the date and validates it (month 1..12, day within the month,
year 1..9999), returning `none` where Python raises `ValueError`. -/
def parseDate (l : List Char) : Option Date :=
  match l with
  | [y1, y2, y3, y4, _, m1, m2, _, d1, d2] =>
    if (⟨natOfDigits [y1, y2, y3, y4], natOfDigits [m1, m2],
          natOfDigits [d1, d2]⟩ : Date).Valid
    then some ⟨natOfDigits [y1, y2, y3, y4], natOfDigits [m1, m2],
          natOfDigits [d1, d2]⟩
    else none
  | _ => none

/-- Zero-padded decimal rendering of width `w`. -/
def padNum (w n : Nat) : String :=
  String.mk (List.replicate (w - (toString n).length) '0') ++ toString n

/-- `date.strftime("%Y-%m-%d")`. -/
def formatDate (d : Date) : String :=
  padNum 4 d.year ++ "-" ++ padNum 2 d.month ++ "-" ++ padNum 2 d.day

theorem parseDate_valid {l : List Char} {d : Date}
    (h : parseDate l = some d) : d.Valid := by
  unfold parseDate at h
  split at h
  · split at h
    · rename_i hv
      cases h
      exact hv
    · exact absurd h (by simp)
  · exact absurd h (by simp)

/-! ## `ParallelExecutor._detect_partitions` -/

/-- The date-range detection step: the BETWEEN pattern is searched first,
then the `>= ... AND <col> <= ...` pattern; the two captured date literals
are returned. -/
def detected_range (sql : String) : Option (List Char × List Char) :=
  match searchBetween sql.toList with
  | some m => some (m.d1, m.d2)
  | none =>
    match searchRange sql.toList with
    | some m => some (m.d1, m.d2)
    | none => none

/-- `_detect_partitions`.  `.ok [none]` models the `[None]` return (no
partitioning); `.error` models a `ValueError` escaping from
`datetime.strptime` on an out-of-range date literal. -/
def detect_partitions (sql : String) : Except String (List (Option Partition)) :=
  match detected_range sql with
  | none => .ok [none]
  | some (ds, de) =>
    match parseDate ds with
    | none => .error "ValueError: time data does not match format %Y-%m-%d"
    | some s =>
      match parseDate de with
      | none => .error "ValueError: time data does not match format %Y-%m-%d"
      | some e =>
        if (rata e : Int) - (rata s : Int) ≤ 30 then .ok [none]
        else .ok ((monthlyPartitions s e).map some)

/-- C1: for a SQL statement with a detected literal date range longer than
30 days, the planner produces the monthly partition list, which is
chronologically ordered and pairwise disjoint, starts at the range start,
ends at the range end, tiles the interval exactly (no gap, no overlap),
and has every interior boundary on a calendar-month boundary (non-first
partitions start on the 1st, non-last partitions end on a month's last
day). -/
theorem C1_partition_tiling (sql : String) (ds de : List Char) (s e : Date)
    (hdet : detected_range sql = some (ds, de))
    (hps : parseDate ds = some s) (hpe : parseDate de = some e)
    (hspan : 30 < (rata e : Int) - (rata s : Int)) :
    detect_partitions sql = .ok ((monthlyPartitions s e).map some) ∧
    List.Pairwise (fun p q => rata p.stop < rata q.start)
      (monthlyPartitions s e) ∧
    (∀ h : monthlyPartitions s e ≠ [],
       ((monthlyPartitions s e).head h).start = s) ∧
    (∀ h : monthlyPartitions s e ≠ [],
       rata (((monthlyPartitions s e).getLast h).stop) = rata e) ∧
    (∀ n : Nat, (rata s ≤ n ∧ n ≤ rata e) ↔
       ∃ p ∈ monthlyPartitions s e, rata p.start ≤ n ∧ n ≤ rata p.stop) ∧
    (∀ p ∈ (monthlyPartitions s e).tail, p.start.day = 1) ∧
    (∀ p ∈ (monthlyPartitions s e).dropLast,
       p.stop.day = daysInMonth p.stop.year p.stop.month) := by
  have hse : rata s ≤ rata e := by omega
  have hv : s.Valid := parseDate_valid hps
  have hspec := monthlyPartitions_spec s e hv hse
  obtain ⟨hne, hhead, hlast, hchain, hfit, hrange, htail, hdrop⟩ := hspec
  refine ⟨?_, ?_, ?_, hlast, ?_, htail, hdrop⟩
  · unfold detect_partitions
    rw [hdet]
    dsimp only
    rw [hps]
    dsimp only
    rw [hpe]
    dsimp only
    rw [if_neg (by omega)]
  · exact chained_pairwise _ hchain hfit
  · exact monthlyPartitions_head s e hv hse
  · cases hcons : monthlyPartitions s e with
    | nil => exact absurd hcons hne
    | cons p rest =>
      have hhd : p.start = s := by
        have h3 : ∀ l : List Partition, l = p :: rest →
            (∀ h : l ≠ [], (l.head h).start = s) → p.start = s := by
          intro l hl hall
          subst hl
          simpa using hall (by simp)
        exact h3 _ hcons (monthlyPartitions_head s e hv hse)
      rw [hcons] at hchain hfit
      have hlast2 : rata (((p :: rest).getLast (by simp)).stop) = rata e := by
        have h3 : ∀ l : List Partition, l = p :: rest →
            (∀ h : l ≠ [], rata ((l.getLast h).stop) = rata e) →
            rata (((p :: rest).getLast (by simp : (p :: rest) ≠ [])).stop) =
              rata e := by
          intro l hl hall
          subst hl
          exact hall (by simp)
        exact h3 _ hcons hlast
      have hcov := chained_covers rest p (rata e) hchain hfit hlast2
      intro n
      rw [← hhd]
      exact hcov n

/-- Witness for C1 at the spec's six-month example. -/
theorem C1_partition_tiling_witness :
    detect_partitions
        ("SELECT * FROM t WHERE ym BETWEEN " ++
          String.mk ([quoteChar] ++ "2024-01-01".toList ++ [quoteChar]) ++
          " AND " ++
          String.mk ([quoteChar] ++ "2024-06-30".toList ++ [quoteChar])) =
      .ok ((monthlyPartitions ⟨2024, 1, 1⟩ ⟨2024, 6, 30⟩).map some) ∧
    List.Pairwise (fun p q => rata p.stop < rata q.start)
      (monthlyPartitions ⟨2024, 1, 1⟩ ⟨2024, 6, 30⟩) ∧
    (∀ h : monthlyPartitions ⟨2024, 1, 1⟩ ⟨2024, 6, 30⟩ ≠ [],
       ((monthlyPartitions ⟨2024, 1, 1⟩ ⟨2024, 6, 30⟩).head h).start =
         ⟨2024, 1, 1⟩) ∧
    (∀ h : monthlyPartitions ⟨2024, 1, 1⟩ ⟨2024, 6, 30⟩ ≠ [],
       rata (((monthlyPartitions ⟨2024, 1, 1⟩ ⟨2024, 6, 30⟩).getLast h).stop) =
         rata ⟨2024, 6, 30⟩) ∧
    (∀ n : Nat, (rata ⟨2024, 1, 1⟩ ≤ n ∧ n ≤ rata ⟨2024, 6, 30⟩) ↔
       ∃ p ∈ monthlyPartitions ⟨2024, 1, 1⟩ ⟨2024, 6, 30⟩,
         rata p.start ≤ n ∧ n ≤ rata p.stop) ∧
    (∀ p ∈ (monthlyPartitions ⟨2024, 1, 1⟩ ⟨2024, 6, 30⟩).tail,
       p.start.day = 1) ∧
    (∀ p ∈ (monthlyPartitions ⟨2024, 1, 1⟩ ⟨2024, 6, 30⟩).dropLast,
       p.stop.day = daysInMonth p.stop.year p.stop.month) :=
  C1_partition_tiling _ ("2024-01-01".toList) ("2024-06-30".toList)
    ⟨2024, 1, 1⟩ ⟨2024, 6, 30⟩ (by decide) (by decide) (by decide) (by decide)

/-! ## `ParallelExecutor.execute` / `_execute_parallel` / `execute_with_limit`

The database is abstracted as a function `db : String → Except String
(List Row)` standing for `_execute_single` (connect, run the statement,
fetch all rows; `.error` models any exception raised there, carrying
`str(e)`).  Each executor function also returns the list of SQL texts
passed to `_execute_single`, in submission order, so that "the original
SQL is executed once, unmodified" is expressible. -/

/-- The `execution_info` dict (`elapsed_ms`, wall-clock time, is not
modelled). -/
structure ExecInfo where
  parallel : Bool
  partitions : Nat
  deriving DecidableEq, Repr

/-- The result dict of `ParallelExecutor.execute`. -/
structure ExecResult (Row : Type) where
  success : Bool
  data : List Row
  row_count : Nat
  error : Option String
  execution_info : ExecInfo
  deriving DecidableEq, Repr

/-- The rewritten per-partition statements submitted to the pool, paired
with their outcomes. -/
def partitionTasks {Row : Type} (db : String → Except String (List Row))
    (sql : String) (partitions : List Partition) :
    List (Partition × Except String (List Row)) :=
  partitions.map (fun p =>
    (p, db (replace_date_range sql (formatDate p.start) (formatDate p.stop))))

/-- One `as_completed` iteration of `_execute_parallel`: extend the
merged rows on success, append a failure record on exception. -/
def mergeStep {Row : Type} (acc : List Row × List String)
    (t : Partition × Except String (List Row)) : List Row × List String :=
  match t.2 with
  | .ok result => (acc.1 ++ result, acc.2)
  | .error e => (acc.1, acc.2 ++ ["Partition failed: " ++ e])

/-- `_execute_parallel`: results are collected in completion order
(`as_completed`), which is an arbitrary permutation of the submitted
tasks, given here as the index list `order`; a failed task contributes a
message to the local `errors` list (logged, not returned) and no rows. -/
def execute_parallel {Row : Type} (db : String → Except String (List Row))
    (order : List Nat) (sql : String) (partitions : List Partition) :
    List Row × List String :=
  let tasks := partitionTasks db sql partitions
  (order.filterMap (fun i => tasks.get? i)).foldl mergeStep ([], [])

/-- `ParallelExecutor.execute`.  The blanket `except Exception` of the
source converts every raised exception into the error dict, so the
embedding is a total function; the second component is the trace of
statements given to `_execute_single`. -/
def execute {Row : Type} (db : String → Except String (List Row))
    (order : List Nat) (sql : String) (parallel : Bool) :
    ExecResult Row × List String :=
  if parallel = false then
    match db sql with
    | .ok data =>
      (⟨true, data, data.length, none, ⟨false, 1⟩⟩, [sql])
    | .error e =>
      (⟨false, [], 0, some e, ⟨parallel, 0⟩⟩, [sql])
  else
    match detect_partitions sql with
    | .error e => (⟨false, [], 0, some e, ⟨parallel, 0⟩⟩, [])
    | .ok partitions =>
      if partitions.length ≤ 1 then
        match db sql with
        | .ok data =>
          (⟨true, data, data.length, none, ⟨false, 1⟩⟩, [sql])
        | .error e =>
          (⟨false, [], 0, some e, ⟨parallel, 0⟩⟩, [sql])
      else
        -- in this branch `detect_partitions` returned a mapped `some`
        -- list (see `detect_partitions_shape`), so `filterMap id` is the
        -- identity on the underlying partition list
        let ps := partitions.filterMap id
        (⟨true, (execute_parallel db order sql ps).1,
          (execute_parallel db order sql ps).1.length, none,
          ⟨true, partitions.length⟩⟩,
         ps.map (fun p =>
           replace_date_range sql (formatDate p.start) (formatDate p.stop)))

/-- `\bLIMIT\s+\d+` tried at one position (the preceding character, if
any, is supplied for the word-boundary test). -/
def matchLimitAt (prev : Option Char) (cs : List Char) : Bool :=
  (match prev with
   | none => true
   | some c => ¬ pyIsWord c) &&
  (match matchLitCI "LIMIT".toList cs with
   | none => false
   | some (_, r1) =>
     match takeSpaces1 r1 with
     | none => false
     | some (_, r2) =>
       match r2 with
       | c :: _ => pyIsDigit c
       | [] => false)

/-- `re.search(r"\bLIMIT\s+\d+", sql, re.IGNORECASE)` as a Boolean. -/
def hasLimitScan : Option Char → List Char → Bool
  | prev, [] => matchLimitAt prev []
  | prev, c :: cs => matchLimitAt prev (c :: cs) || hasLimitScan (some c) cs

def hasLimit (sql : String) : Bool := hasLimitScan none sql.toList

/-- Python `sql.rstrip(";")`. -/
def pyRstripSemi (sql : String) : String :=
  String.mk ((sql.toList.reverse.dropWhile (fun c => c = Char.ofNat 59)).reverse)

/-- `ParallelExecutor.execute_with_limit`. -/
def execute_with_limit {Row : Type} (db : String → Except String (List Row))
    (order : List Nat) (sql : String) (limit : Nat) :
    ExecResult Row × List String :=
  let sql2 := if hasLimit sql then sql
    else pyRstripSemi sql ++ " LIMIT " ++ toString limit
  execute db order sql2 false

/-- The fan-in fold of `_execute_parallel`, characterised: merged rows are
the concatenation of the successful tasks' row lists (in completion
order), and one failure record is appended per failed task. -/
theorem execute_parallel_merge {Row : Type} :
    ∀ (ts : List (Partition × Except String (List Row)))
      (acc : List Row × List String),
      (ts.foldl mergeStep acc).1 =
        acc.1 ++ (ts.filterMap (fun t => t.2.toOption)).flatten ∧
      (ts.foldl mergeStep acc).2.length =
        acc.2.length + (ts.filter (fun t => t.2.toOption.isNone)).length := by
  intro ts
  induction ts with
  | nil => intro acc; simp
  | cons t rest ih =>
    intro acc
    obtain ⟨p, res⟩ := t
    cases res with
    | ok result =>
      have hstep : mergeStep acc (p, Except.ok result) =
          (acc.1 ++ result, acc.2) := rfl
      have h1 := ih (acc.1 ++ result, acc.2)
      rw [List.foldl_cons, hstep]
      constructor
      · rw [h1.1]
        simp [List.filterMap_cons, Except.toOption, List.append_assoc]
      · rw [h1.2]
        simp [List.filter_cons, Except.toOption]
    | error e =>
      have hstep : mergeStep acc (p, Except.error e) =
          (acc.1, acc.2 ++ ["Partition failed: " ++ e]) := rfl
      have h1 := ih (acc.1, acc.2 ++ ["Partition failed: " ++ e])
      rw [List.foldl_cons, hstep]
      constructor
      · rw [h1.1]
        simp [List.filterMap_cons, Except.toOption]
      · rw [h1.2]
        simp [List.filter_cons, Except.toOption]
        omega

/-- C3: with at least two detected partitions, a partition task that
fails is recorded as a failure (one record per failed task) and its rows
are omitted, the successful tasks' rows are concatenated in completion
order, and `execute` reports `success=true` with no error — whatever the
database does, including when every partition fails (in which case the
merged data is empty). -/
theorem C3_partial_failure_merge {Row : Type}
    (db : String → Except String (List Row)) (order : List Nat)
    (sql : String) (partitions : List (Option Partition))
    (hdet : detect_partitions sql = .ok partitions)
    (hlen : 2 ≤ partitions.length) :
    (execute db order sql true).1.success = true ∧
    (execute db order sql true).1.error = none ∧
    (execute db order sql true).1.data =
      (execute_parallel db order sql (partitions.filterMap id)).1 ∧
    (execute_parallel db order sql (partitions.filterMap id)).1 =
      ((order.filterMap
          (fun i => (partitionTasks db sql (partitions.filterMap id)).get? i)).filterMap
        (fun t => t.2.toOption)).flatten ∧
    (execute_parallel db order sql (partitions.filterMap id)).2.length =
      ((order.filterMap
          (fun i => (partitionTasks db sql (partitions.filterMap id)).get? i)).filter
        (fun t => t.2.toOption.isNone)).length ∧
    (((order.filterMap
          (fun i => (partitionTasks db sql (partitions.filterMap id)).get? i)).filterMap
        (fun t => t.2.toOption)) = [] →
      (execute db order sql true).1.data = []) := by
  have hexec : execute db order sql true =
      (⟨true, (execute_parallel db order sql (partitions.filterMap id)).1,
        (execute_parallel db order sql (partitions.filterMap id)).1.length,
        none, ⟨true, partitions.length⟩⟩,
       (partitions.filterMap id).map (fun p =>
         replace_date_range sql (formatDate p.start) (formatDate p.stop))) := by
    unfold execute
    rw [if_neg (by simp), hdet]
    dsimp only
    rw [if_neg (by omega)]
  have hmerge := @execute_parallel_merge Row
    (order.filterMap
      (fun i => (partitionTasks db sql (partitions.filterMap id)).get? i))
    ([], [])
  refine ⟨by rw [hexec], by rw [hexec], by rw [hexec], ?_, ?_, ?_⟩
  · show (execute_parallel db order sql (partitions.filterMap id)).1 = _
    unfold execute_parallel
    rw [hmerge.1]
    simp
  · show (execute_parallel db order sql (partitions.filterMap id)).2.length = _
    unfold execute_parallel
    rw [hmerge.2]
    simp
  · intro hnil
    rw [hexec]
    show (execute_parallel db order sql (partitions.filterMap id)).1 = []
    unfold execute_parallel
    rw [hmerge.1, hnil]
    simp

/-- Witness for C3: the six-partition query against a database that fails
on every statement still merges to an empty `success=true` result. -/
theorem C3_partial_failure_merge_witness :
    (@execute Nat (fun _ => .error "boom") [0, 1, 2, 3, 4, 5]
      ("SELECT * FROM t WHERE ym BETWEEN " ++ quoted "2024-01-01" ++
        " AND " ++ quoted "2024-06-30") true).1.success = true :=
  (C3_partial_failure_merge (fun _ => .error "boom") [0, 1, 2, 3, 4, 5]
    ("SELECT * FROM t WHERE ym BETWEEN " ++ quoted "2024-01-01" ++
      " AND " ++ quoted "2024-06-30")
    ((monthlyPartitions ⟨2024, 1, 1⟩ ⟨2024, 6, 30⟩).map some)
    rfl (by decide)).1

/-- C8: when the planner reports a single unpartitioned unit (`[None]`:
no supported predicate, or a span of at most 30 days), `execute` runs the
original SQL text exactly once, unmodified, and the metadata reports
`parallel=false` and one partition. -/
theorem C8_single_unpartitioned_unit {Row : Type}
    (db : String → Except String (List Row)) (order : List Nat)
    (sql : String) (rows : List Row)
    (hdet : detect_partitions sql = .ok [none])
    (hdb : db sql = .ok rows) :
    execute db order sql true =
      (⟨true, rows, rows.length, none, ⟨false, 1⟩⟩, [sql]) := by
  unfold execute
  rw [if_neg (by simp), hdet]
  dsimp only
  rw [if_pos (by simp), hdb]

/-- Witness for C8: a statement with no date predicate, and one with a
15-day range, both execute as a single unit. -/
theorem C8_single_unpartitioned_unit_witness :
    @execute Nat (fun _ => .ok [7]) [] "SELECT * FROM t" true =
      (⟨true, [7], 1, none, ⟨false, 1⟩⟩, ["SELECT * FROM t"]) ∧
    @execute Nat (fun _ => .ok [7]) []
        ("SELECT * FROM t WHERE ym BETWEEN " ++ quoted "2024-01-01" ++
          " AND " ++ quoted "2024-01-15") true =
      (⟨true, [7], 1, none, ⟨false, 1⟩⟩,
       ["SELECT * FROM t WHERE ym BETWEEN " ++ quoted "2024-01-01" ++
          " AND " ++ quoted "2024-01-15"]) :=
  ⟨C8_single_unpartitioned_unit _ _ _ [7] rfl rfl,
   C8_single_unpartitioned_unit _ _ _ [7] rfl rfl⟩

/-- Every error string `detect_partitions` can produce is non-empty (it
is the `ValueError` text from `datetime.strptime`). -/
theorem detect_partitions_error_ne {sql : String} {e : String}
    (h : detect_partitions sql = .error e) : e ≠ "" := by
  unfold detect_partitions at h
  split at h
  · exact absurd h (by simp)
  · split at h
    · cases h
      decide
    · split at h
      · cases h
        decide
      · split at h <;> exact absurd h (by simp)

/-- Shared result-shape facts for `execute` (see C10). -/
theorem execute_result_invariants {Row : Type}
    (db : String → Except String (List Row)) (order : List Nat)
    (sql : String) (parallel : Bool)
    (hdb : ∀ s msg, db s = .error msg → msg ≠ "") :
    (execute db order sql parallel).1.row_count =
      (execute db order sql parallel).1.data.length ∧
    ((execute db order sql parallel).1.success = false →
      (execute db order sql parallel).1.data = [] ∧
      (execute db order sql parallel).1.row_count = 0 ∧
      ∃ m, (execute db order sql parallel).1.error = some m ∧ m ≠ "") ∧
    ((execute db order sql parallel).1.success = true →
      (execute db order sql parallel).1.error = none) := by
  unfold execute
  by_cases hp : parallel = false
  · rw [if_pos hp]
    cases hd : db sql with
    | ok data =>
      refine ⟨rfl, ?_, fun _ => rfl⟩
      intro hcontra
      simp at hcontra
    | error e =>
      refine ⟨rfl, ?_, ?_⟩
      · intro _
        exact ⟨rfl, rfl, e, rfl, hdb sql e hd⟩
      · intro hcontra
        simp at hcontra
  · rw [if_neg hp]
    cases hdet : detect_partitions sql with
    | error e =>
      refine ⟨rfl, ?_, ?_⟩
      · intro _
        exact ⟨rfl, rfl, e, rfl, detect_partitions_error_ne hdet⟩
      · intro hcontra
        simp at hcontra
    | ok partitions =>
      dsimp only
      by_cases hlen : partitions.length ≤ 1
      · rw [if_pos hlen]
        cases hd : db sql with
        | ok data =>
          refine ⟨rfl, ?_, fun _ => rfl⟩
          intro hcontra
          simp at hcontra
        | error e =>
          refine ⟨rfl, ?_, ?_⟩
          · intro _
            exact ⟨rfl, rfl, e, rfl, hdb sql e hd⟩
          · intro hcontra
            simp at hcontra
      · rw [if_neg hlen]
        refine ⟨rfl, ?_, fun _ => rfl⟩
        intro hcontra
        simp at hcontra

/-- C10: on every path of `execute` and `execute_with_limit`,
`row_count = len(data)`; a `success=false` result has empty data, zero
row count and a non-empty error string (given that the database reports
non-empty exception messages, as `pymysql` does); a `success=true` result
has `error=None`. -/
theorem C10_result_dict_invariants {Row : Type}
    (db : String → Except String (List Row)) (order : List Nat)
    (sql : String) (parallel : Bool) (limit : Nat)
    (hdb : ∀ s msg, db s = .error msg → msg ≠ "") :
    ((execute db order sql parallel).1.row_count =
        (execute db order sql parallel).1.data.length ∧
      ((execute db order sql parallel).1.success = false →
        (execute db order sql parallel).1.data = [] ∧
        (execute db order sql parallel).1.row_count = 0 ∧
        ∃ m, (execute db order sql parallel).1.error = some m ∧ m ≠ "") ∧
      ((execute db order sql parallel).1.success = true →
        (execute db order sql parallel).1.error = none)) ∧
    ((execute_with_limit db order sql limit).1.row_count =
        (execute_with_limit db order sql limit).1.data.length ∧
      ((execute_with_limit db order sql limit).1.success = false →
        (execute_with_limit db order sql limit).1.data = [] ∧
        (execute_with_limit db order sql limit).1.row_count = 0 ∧
        ∃ m, (execute_with_limit db order sql limit).1.error = some m ∧ m ≠ "") ∧
      ((execute_with_limit db order sql limit).1.success = true →
        (execute_with_limit db order sql limit).1.error = none)) :=
  ⟨execute_result_invariants db order sql parallel hdb,
   execute_result_invariants db order
     (if hasLimit sql then sql else pyRstripSemi sql ++ " LIMIT " ++ toString limit)
     false hdb⟩

/-- Witness for C10 with an all-failing database. -/
theorem C10_result_dict_invariants_witness :
    ((@execute Nat (fun _ => .error "boom") [] "SELECT 1" true).1.row_count =
        (@execute Nat (fun _ => .error "boom") [] "SELECT 1" true).1.data.length ∧
      ((@execute Nat (fun _ => .error "boom") [] "SELECT 1" true).1.success = false →
        (@execute Nat (fun _ => .error "boom") [] "SELECT 1" true).1.data = [] ∧
        (@execute Nat (fun _ => .error "boom") [] "SELECT 1" true).1.row_count = 0 ∧
        ∃ m, (@execute Nat (fun _ => .error "boom") [] "SELECT 1" true).1.error =
          some m ∧ m ≠ "") ∧
      ((@execute Nat (fun _ => .error "boom") [] "SELECT 1" true).1.success = true →
        (@execute Nat (fun _ => .error "boom") [] "SELECT 1" true).1.error = none)) ∧
    ((@execute_with_limit Nat (fun _ => .error "boom") [] "SELECT 1" 1000).1.row_count =
        (@execute_with_limit Nat (fun _ => .error "boom") [] "SELECT 1" 1000).1.data.length ∧
      ((@execute_with_limit Nat (fun _ => .error "boom") [] "SELECT 1" 1000).1.success = false →
        (@execute_with_limit Nat (fun _ => .error "boom") [] "SELECT 1" 1000).1.data = [] ∧
        (@execute_with_limit Nat (fun _ => .error "boom") [] "SELECT 1" 1000).1.row_count = 0 ∧
        ∃ m, (@execute_with_limit Nat (fun _ => .error "boom") [] "SELECT 1" 1000).1.error =
          some m ∧ m ≠ "") ∧
      ((@execute_with_limit Nat (fun _ => .error "boom") [] "SELECT 1" 1000).1.success = true →
        (@execute_with_limit Nat (fun _ => .error "boom") [] "SELECT 1" 1000).1.error = none)) :=
  C10_result_dict_invariants (fun _ => .error "boom") [] "SELECT 1" true 1000
    (fun s msg h => by
      have h2 : msg = "boom" := by
        have h3 : Except.error (ε := String) (α := List Nat) "boom" = .error msg := h
        cases h3
        rfl
      rw [h2]
      decide)

/-! ## `SQLValidator.validate` (`src/sql/validator.py`)

The combined outcome of `self._get_connection()` (lazy `pymysql.connect`)
and `cursor.execute(f"EXPLAIN {sql}")` is abstracted as a parameter of
type `Except PyErr Unit`: `.error` is the exception the pair would raise
(a connection failure surfaces as `pymysql.err.OperationalError`).  The
embedding's return type is `Except PyErr VResult` so that raising versus
returning is visible; every branch of the source returns, so every branch
here is `.ok`. -/

/-- The exceptions distinguished by `validate`'s handlers. -/
inductive PyErr where
  | programming (code : Int) (msg : String)
  | operational (code : Int) (msg : String)
  | other (msg : String)
  deriving DecidableEq, Repr

/-- The `errors` sub-dict of a validation result. -/
structure VError where
  code : Int
  message : String
  etype : String
  deriving DecidableEq, Repr

/-- The result dict of `SQLValidator.validate`. -/
structure VResult where
  is_valid : Bool
  errors : Option VError
  deriving DecidableEq, Repr

def startsWithL : List Char → List Char → Bool
  | [], _ => true
  | _ :: _, [] => false
  | a :: as, b :: bs => a = b && startsWithL as bs

def containsL (needle : List Char) : List Char → Bool
  | [] => startsWithL needle []
  | c :: cs => startsWithL needle (c :: cs) || hasContains needle cs
where hasContains (needle : List Char) (cs : List Char) : Bool :=
  containsL needle cs

/-- Python `str.strip()` (ASCII whitespace model). -/
def pyStrip (s : String) : String :=
  String.mk (((s.toList.dropWhile pyIsSpace).reverse.dropWhile pyIsSpace).reverse)

/-- Python `str.upper()` (ASCII model). -/
def pyUpper (s : String) : String := String.mk (s.toList.map Char.toUpper)

/-- Python `str.lower()` (ASCII model). -/
def pyLower (s : String) : String := String.mk (s.toList.map Char.toLower)

/-- `sql.strip().upper().startswith("SELECT")`. -/
def startsWithSelect (sql : String) : Bool :=
  startsWithL "SELECT".toList (pyUpper (pyStrip sql)).toList

/-- `SQLValidator._classify_error`: first matching case-insensitive
substring wins. -/
def classify_error (msg : String) : String :=
  let ml := (pyLower msg).toList
  if containsL "unknown column".toList ml then "unknown_column"
  else if containsL "table".toList ml &&
      containsL ("doesn" ++ String.mk [quoteChar] ++ "t exist").toList ml then
    "unknown_table"
  else if containsL "syntax".toList ml then "syntax_error"
  else if containsL "ambiguous".toList ml then "ambiguous_column"
  else if containsL "access denied".toList ml then "access_denied"
  else "other"

/-- The `not_select` rejection dict. -/
def notSelectResult : VResult :=
  ⟨false, some ⟨-1, "SELECT queries only", "not_select"⟩⟩

/-- `SQLValidator.validate`. -/
def validate (conn : Except PyErr Unit) (sql : String) :
    Except PyErr VResult :=
  if startsWithSelect sql = false then .ok notSelectResult
  else
    match conn with
    | .ok _ => .ok ⟨true, none⟩
    | .error (.programming code msg) =>
      .ok ⟨false, some ⟨code, msg, classify_error msg⟩⟩
    | .error (.operational code msg) =>
      .ok ⟨false, some ⟨code, msg, "operational"⟩⟩
    | .error (.other msg) => .ok ⟨false, some ⟨-1, msg, "unknown"⟩⟩

/-- C5: a statement whose stripped, upper-cased text does not begin with
SELECT is rejected with category `not_select`, and the result is the same
structured value for EVERY database/connection state (the check precedes
any database interaction). -/
theorem C5_not_select_textual (conn : Except PyErr Unit) (sql : String)
    (h : startsWithSelect sql = false) :
    validate conn sql = .ok notSelectResult := by
  unfold validate
  rw [if_pos h]

/-- Witness for C5: an UPDATE statement is rejected identically under a
working connection and under an unreachable database. -/
theorem C5_not_select_textual_witness :
    validate (.error (.operational 2003
        "Cant connect to MySQL server on localhost")) "UPDATE t SET x=1" =
      .ok notSelectResult ∧
    validate (.ok ()) "UPDATE t SET x=1" = .ok notSelectResult :=
  ⟨C5_not_select_textual _ _ (by decide), C5_not_select_textual _ _ (by decide)⟩

/-- C4 counterexample: a connection-establishment failure
(`OperationalError 2003`) does NOT propagate out of
`SQLValidator.validate` — the blanket handlers convert it into the
structured result `is_valid=false, type="operational"`; likewise
`ParallelExecutor.execute` converts a raised connection failure into a
`success=false` result dict instead of re-raising. -/
theorem C4_counterexample :
    validate (.error (.operational 2003
        "Cant connect to MySQL server on localhost")) "SELECT 1" =
      .ok ⟨false, some ⟨2003,
        "Cant connect to MySQL server on localhost", "operational"⟩⟩ ∧
    @execute Unit
        (fun _ => .error "Cant connect to MySQL server on localhost")
        [] "SELECT 1" false =
      (⟨false, [], 0, some "Cant connect to MySQL server on localhost",
        ⟨false, 0⟩⟩, ["SELECT 1"]) := by
  refine ⟨rfl, rfl⟩

/-- C4 amended: connection-establishment failures during validation and
during (non-parallel) execution are caught and returned as structured
results — `validate` yields `is_valid=false` with category
`"operational"`, `execute` yields `success=false` carrying the message —
and neither call propagates the exception. -/
theorem C4_connection_failure_structured {Row : Type} (sql : String)
    (code : Int) (msg : String) (order : List Nat)
    (hsel : startsWithSelect sql = true) :
    validate (.error (.operational code msg)) sql =
      .ok ⟨false, some ⟨code, msg, "operational"⟩⟩ ∧
    @execute Row (fun _ => .error msg) order sql false =
      (⟨false, [], 0, some msg, ⟨false, 0⟩⟩, [sql]) := by
  constructor
  · unfold validate
    rw [hsel]
    simp
  · unfold execute
    simp

/-- Witness for the amended C4. -/
theorem C4_connection_failure_structured_witness :
    validate (.error (.operational 2003
        "Cant connect to MySQL server on localhost")) "SELECT 1" =
      .ok ⟨false, some ⟨2003,
        "Cant connect to MySQL server on localhost", "operational"⟩⟩ ∧
    @execute Unit
        (fun _ => .error "Cant connect to MySQL server on localhost")
        [3] "SELECT 1" false =
      (⟨false, [], 0, some "Cant connect to MySQL server on localhost",
        ⟨false, 0⟩⟩, ["SELECT 1"]) :=
  C4_connection_failure_structured "SELECT 1" 2003
    "Cant connect to MySQL server on localhost" [3] (by decide)

/-! ## `SchemaGraph` (`src/context/graph_rag.py`)

`networkx.DiGraph` is embedded as association lists: `nodes` maps a table
name to its attribute record, `edges` maps an ordered pair of names to an
edge-attribute record.  `add_node` updates attributes in place,
`add_edge` inserts missing endpoint nodes (with empty attributes) and
overwrites the attributes of an existing edge, exactly as networkx
does. -/

structure ColumnMeta where
  name : String
  ctype : String
  cdescription : String
  deriving DecidableEq, Repr

/-- Node attributes (`description`, `source`, `columns`). -/
structure NodeData where
  ndescription : String
  nsource : String
  columns : List ColumnMeta
  deriving DecidableEq, Repr

/-- Edge attributes of `_build_graph`. -/
structure EdgeData where
  from_col : String
  to_col : String
  etype : String
  edescription : String
  join_condition : String
  deriving DecidableEq, Repr

structure Graph where
  nodes : List (String × NodeData)
  edges : List ((String × String) × EdgeData)
  deriving DecidableEq, Repr

def nodeNames (g : Graph) : List String := g.nodes.map (fun x => x.1)

/-- `name in graph`. -/
def hasNode (g : Graph) (n : String) : Bool := g.nodes.any (fun x => x.1 = n)

def lookupEdge : List ((String × String) × EdgeData) → (String × String) →
    Option EdgeData
  | [], _ => none
  | e :: es, k => if e.1 = k then some e.2 else lookupEdge es k

/-- `graph.edges[u, v]` (as an `Option`). -/
def getEdge (g : Graph) (u v : String) : Option EdgeData :=
  lookupEdge g.edges (u, v)

/-- `graph.add_node(name, **attrs)`. -/
def addNodeAttrs (g : Graph) (n : String) (d : NodeData) : Graph :=
  if hasNode g n then
    { g with nodes := g.nodes.map (fun x => if x.1 = n then (n, d) else x) }
  else { g with nodes := g.nodes ++ [(n, d)] }

/-- networkx auto-creates missing endpoints of an edge with empty
attributes. -/
def ensureNode (g : Graph) (n : String) : Graph :=
  if hasNode g n then g else { g with nodes := g.nodes ++ [(n, ⟨"", "", []⟩)] }

/-- `graph.add_edge(u, v, **attrs)`. -/
def addEdge (g : Graph) (u v : String) (d : EdgeData) : Graph :=
  let g1 := ensureNode (ensureNode g u) v
  if (lookupEdge g1.edges (u, v)).isSome then
    { g1 with edges := g1.edges.map (fun x => if x.1 = (u, v) then ((u, v), d) else x) }
  else { g1 with edges := g1.edges ++ [((u, v), d)] }

/-- One relationship entry of the YAML metadata (`from` and `to` are
reserved words in Lean, hence the `r` prefixes). -/
structure RelMeta where
  rfrom : String
  rto : String
  rtype : String
  rdescription : String
  deriving DecidableEq, Repr

structure TableMeta where
  name : String
  tdescription : String
  tsource : String
  columns : List ColumnMeta
  deriving DecidableEq, Repr

/-- The parts of the schema metadata consumed by `_build_graph` (the
business glossary is not used by graph construction). -/
structure SchemaMeta where
  tables : List TableMeta
  relationships : List RelMeta
  deriving DecidableEq, Repr

/-- Split a character list at the first occurrence of `sep`: the part
before it, and (when present) the remainder after it. -/
def splitFirst (sep : Char) : List Char → List Char × Option (List Char)
  | [] => ([], none)
  | c :: cs =>
    if c = sep then ([], some cs)
    else
      let r := splitFirst sep cs
      (c :: r.1, r.2)

/-- `rel["from"].split(".")`, restricted to the two components the source
reads: `parts[0]` and (`parts[1]` if it exists, else `""`). -/
def splitTable (s : String) : String × String :=
  match splitFirst (Char.ofNat 46) s.toList with
  | (t, none) => (String.mk t, "")
  | (t, some rest) => (String.mk t, String.mk (splitFirst (Char.ofNat 46) rest).1)

/-- Insert the two directed edges of one relationship. -/
def addRelationship (g : Graph) (rel : RelMeta) : Graph :=
  let ft := (splitTable rel.rfrom).1
  let fc := (splitTable rel.rfrom).2
  let tt := (splitTable rel.rto).1
  let tc := (splitTable rel.rto).2
  let g1 := addEdge g ft tt
    ⟨fc, tc, rel.rtype, rel.rdescription, rel.rfrom ++ " = " ++ rel.rto⟩
  addEdge g1 tt ft
    ⟨tc, fc, rel.rtype, rel.rdescription, rel.rto ++ " = " ++ rel.rfrom⟩

/-- `SchemaGraph._build_graph`. -/
def build_graph (md : SchemaMeta) : Graph :=
  let g1 := md.tables.foldl
    (fun g t => addNodeAttrs g t.name ⟨t.tdescription, t.tsource, t.columns⟩)
    ⟨[], []⟩
  md.relationships.foldl addRelationship g1

theorem lookupEdge_replace (l : List ((String × String) × EdgeData))
    (k : String × String) (d : EdgeData) :
    lookupEdge (l.map (fun x => if x.1 = k then (k, d) else x)) k =
      if (lookupEdge l k).isSome then some d else none := by
  induction l with
  | nil => rfl
  | cons e es ih =>
    by_cases he : e.1 = k
    · simp [lookupEdge, he]
    · simp only [List.map_cons, lookupEdge, if_neg he]
      exact ih

theorem lookupEdge_append_self (l : List ((String × String) × EdgeData))
    (k : String × String) (d : EdgeData) (h : lookupEdge l k = none) :
    lookupEdge (l ++ [(k, d)]) k = some d := by
  induction l with
  | nil => simp [lookupEdge]
  | cons e es ih =>
    simp only [lookupEdge] at h
    split at h
    · exact absurd h (by simp)
    · rename_i he
      simp only [List.cons_append, lookupEdge, if_neg he]
      exact ih h

theorem lookupEdge_append_other (l : List ((String × String) × EdgeData))
    (k k2 : String × String) (d : EdgeData) (h : k2 ≠ k) :
    lookupEdge (l ++ [(k, d)]) k2 = lookupEdge l k2 := by
  induction l with
  | nil =>
    have hne : k ≠ k2 := fun hh => h hh.symm
    simp [lookupEdge, hne]
  | cons e es ih =>
    by_cases he : e.1 = k2
    · simp [lookupEdge, he]
    · simp only [List.cons_append, lookupEdge, if_neg he]
      exact ih

theorem lookupEdge_replace_other (l : List ((String × String) × EdgeData))
    (k k2 : String × String) (d : EdgeData) (h : k2 ≠ k) :
    lookupEdge (l.map (fun x => if x.1 = k then (k, d) else x)) k2 =
      lookupEdge l k2 := by
  induction l with
  | nil => rfl
  | cons e es ih =>
    by_cases he : e.1 = k
    · have hne : k ≠ k2 := fun hh => h hh.symm
      simp only [List.map_cons, if_pos he, lookupEdge, if_neg hne]
      rw [if_neg (by rw [he]; exact hne)]
      exact ih
    · simp only [List.map_cons, if_neg he, lookupEdge]
      by_cases he2 : e.1 = k2
      · simp [he2]
      · rw [if_neg he2, if_neg he2]
        exact ih

/-- `add_edge` makes `graph.edges[u, v]` hold exactly the supplied
attributes. -/
theorem getEdge_addEdge_self (g : Graph) (u v : String) (d : EdgeData) :
    getEdge (addEdge g u v d) u v = some d := by
  unfold addEdge getEdge
  by_cases h : (lookupEdge (ensureNode (ensureNode g u) v).edges (u, v)).isSome
  · rw [if_pos h]
    show lookupEdge ((ensureNode (ensureNode g u) v).edges.map _) (u, v) = some d
    rw [lookupEdge_replace]
    rw [if_pos h]
  · rw [if_neg h]
    show lookupEdge ((ensureNode (ensureNode g u) v).edges ++ [((u, v), d)]) (u, v) = some d
    apply lookupEdge_append_self
    cases hcase : lookupEdge (ensureNode (ensureNode g u) v).edges (u, v) with
    | none => rfl
    | some x => rw [hcase] at h; simp at h

/-- `add_edge` on a different ordered pair leaves `graph.edges[a, b]`
unchanged. -/
theorem getEdge_addEdge_other (g : Graph) (u v a b : String) (d : EdgeData)
    (h : (a, b) ≠ (u, v)) :
    getEdge (addEdge g u v d) a b = getEdge g a b := by
  unfold addEdge getEdge
  have hens : (ensureNode (ensureNode g u) v).edges = g.edges := by
    unfold ensureNode
    split <;> split <;> rfl
  by_cases hc : (lookupEdge (ensureNode (ensureNode g u) v).edges (u, v)).isSome
  · rw [if_pos hc]
    show lookupEdge ((ensureNode (ensureNode g u) v).edges.map _) (a, b) = _
    rw [lookupEdge_replace_other _ _ _ _ h, hens]
  · rw [if_neg hc]
    show lookupEdge ((ensureNode (ensureNode g u) v).edges ++ [((u, v), d)]) (a, b) = _
    rw [lookupEdge_append_other _ _ _ _ h, hens]

/-- Folding further relationships over the graph preserves an edge whose
ordered pair collides with none of them (in either direction). -/
theorem foldl_addRelationship_preserve :
    ∀ (post : List RelMeta) (g : Graph) (a b : String),
      (∀ r ∈ post,
        ¬ (((splitTable r.rfrom).1 = a ∧ (splitTable r.rto).1 = b) ∨
           ((splitTable r.rfrom).1 = b ∧ (splitTable r.rto).1 = a))) →
      getEdge (post.foldl addRelationship g) a b = getEdge g a b := by
  intro post
  induction post with
  | nil => intro g a b _; rfl
  | cons r rest ih =>
    intro g a b hpost
    have hr := hpost r (by simp)
    rw [List.foldl_cons, ih _ _ _ (fun r2 h2 => hpost r2 (by simp [h2]))]
    unfold addRelationship
    rw [getEdge_addEdge_other, getEdge_addEdge_other]
    · intro hcontra
      rw [Prod.mk.injEq] at hcontra
      exact hr (Or.inl ⟨hcontra.1.symm, hcontra.2.symm⟩)
    · intro hcontra
      rw [Prod.mk.injEq] at hcontra
      exact hr (Or.inr ⟨hcontra.2.symm, hcontra.1.symm⟩)

/-- C9 counterexample: with two relationships between the same ordered
table pair, networkx `add_edge` overwrites the first relationship's edge
attributes, so the built graph does NOT contain an edge carrying the
first relationship's type and join condition. -/
theorem C9_counterexample :
    getEdge (build_graph ⟨[],
        [⟨"a.x", "b.y", "1:N", "first"⟩, ⟨"a.z", "b.w", "1:N", "second"⟩]⟩)
        "a" "b" =
      some ⟨"z", "w", "1:N", "second", "a.z = b.w"⟩ ∧
    getEdge (build_graph ⟨[],
        [⟨"a.x", "b.y", "1:N", "first"⟩, ⟨"a.z", "b.w", "1:N", "second"⟩]⟩)
        "a" "b" ≠
      some ⟨"x", "y", "1:N", "first", "a.x = b.y"⟩ := by
  refine ⟨rfl, by decide⟩

/-- C9 amended: for a relationship whose two tables differ and whose
ordered table pair (in either direction) is not touched by any LATER
relationship, the built graph contains the two opposite directed edges
with swapped column roles, each carrying the relationship's type and the
pre-rendered join-condition string. -/
theorem C9_bidirectional_edges (md : SchemaMeta) (pre post : List RelMeta)
    (rel : RelMeta)
    (hsplit : md.relationships = pre ++ rel :: post)
    (hneq : (splitTable rel.rfrom).1 ≠ (splitTable rel.rto).1)
    (hpost : ∀ r ∈ post,
      ¬ (((splitTable r.rfrom).1 = (splitTable rel.rfrom).1 ∧
            (splitTable r.rto).1 = (splitTable rel.rto).1) ∨
         ((splitTable r.rfrom).1 = (splitTable rel.rto).1 ∧
            (splitTable r.rto).1 = (splitTable rel.rfrom).1))) :
    getEdge (build_graph md) (splitTable rel.rfrom).1 (splitTable rel.rto).1 =
      some ⟨(splitTable rel.rfrom).2, (splitTable rel.rto).2, rel.rtype,
        rel.rdescription, rel.rfrom ++ " = " ++ rel.rto⟩ ∧
    getEdge (build_graph md) (splitTable rel.rto).1 (splitTable rel.rfrom).1 =
      some ⟨(splitTable rel.rto).2, (splitTable rel.rfrom).2, rel.rtype,
        rel.rdescription, rel.rto ++ " = " ++ rel.rfrom⟩ := by
  unfold build_graph
  rw [hsplit, List.foldl_append, List.foldl_cons]
  set g0 := pre.foldl addRelationship
    (md.tables.foldl
      (fun g t => addNodeAttrs g t.name ⟨t.tdescription, t.tsource, t.columns⟩)
      ⟨[], []⟩) with hg0
  constructor
  · rw [foldl_addRelationship_preserve post _ _ _ (fun r h => hpost r h)]
    unfold addRelationship
    rw [getEdge_addEdge_other _ _ _ _ _ _
      (by intro hc; rw [Prod.mk.injEq] at hc; exact hneq hc.1)]
    exact getEdge_addEdge_self _ _ _ _
  · rw [foldl_addRelationship_preserve post _ _ _ (fun r h => by
      have := hpost r h
      intro hcontra
      apply this
      rcases hcontra with ⟨h1, h2⟩ | ⟨h1, h2⟩
      · exact Or.inr ⟨h1, h2⟩
      · exact Or.inl ⟨h1, h2⟩)]
    unfold addRelationship
    exact getEdge_addEdge_self _ _ _ _

/-- Witness for the amended C9 on a two-relationship schema with no
colliding pairs. -/
theorem C9_bidirectional_edges_witness :
    getEdge (build_graph ⟨[],
        [⟨"a.x", "b.y", "1:N", "first"⟩, ⟨"b.k", "c.m", "N:1", "second"⟩]⟩)
        "a" "b" = some ⟨"x", "y", "1:N", "first", "a.x = b.y"⟩ ∧
    getEdge (build_graph ⟨[],
        [⟨"a.x", "b.y", "1:N", "first"⟩, ⟨"b.k", "c.m", "N:1", "second"⟩]⟩)
        "b" "a" = some ⟨"y", "x", "1:N", "first", "b.y = a.x"⟩ :=
  C9_bidirectional_edges
    ⟨[], [⟨"a.x", "b.y", "1:N", "first"⟩, ⟨"b.k", "c.m", "N:1", "second"⟩]⟩
    [] [⟨"b.k", "c.m", "N:1", "second"⟩] ⟨"a.x", "b.y", "1:N", "first"⟩
    rfl (by decide) (by decide)

/-! ## Shortest-path search (`nx.shortest_path` on the unweighted digraph)

`networkx.shortest_path` with no weight performs a breadth-first search
and returns some shortest path, raising `NetworkXNoPath` when the target
is unreachable.  The embedding is a queue-based BFS with an explicit fuel
bound (one node count suffices, as every dequeued entry was enqueued at
most once); `none` models the exception. -/

/-- Whether the directed edge `u → v` is present. -/
def hasEdgeB (g : Graph) (u v : String) : Bool := (getEdge g u v).isSome

/-- The adjacency of `u` (edge targets, in insertion order). -/
def succs (g : Graph) (u : String) : List String :=
  g.edges.filterMap (fun e => if e.1.1 = u then some e.1.2 else none)

/-- Spec-side reachability: a chain of directed edges. -/
def Reach (g : Graph) (a b : String) : Prop :=
  Relation.ReflTransGen (fun u v => hasEdgeB g u v = true) a b

/-- Spec-side path validity: consecutive entries are edges. -/
def IsPath (g : Graph) (p : List String) : Prop :=
  List.Chain' (fun a b => hasEdgeB g a b = true) p

/-- Graph wellformedness: every edge target is a node (networkx
guarantees this; `add_edge` inserts missing endpoints). -/
def WFGraph (g : Graph) : Prop :=
  ∀ e ∈ g.edges, e.1.2 ∈ nodeNames g

def bfsAux (g : Graph) (target : String) :
    Nat → List (String × List String) → List String → Option (List String)
  | 0, _, _ => none
  | _ + 1, [], _ => none
  | fuel + 1, (u, pu) :: queue, visited =>
    if u = target then some pu.reverse
    else
      let newNodes := ((succs g u).dedup).filter (fun v => v ∉ visited)
      bfsAux g target fuel
        (queue ++ newNodes.map (fun v => (v, v :: pu)))
        (visited ++ newNodes)

def shortest_path (g : Graph) (src dst : String) : Option (List String) :=
  bfsAux g dst (g.nodes.length + 1) [(src, [src])] [src]

theorem lookupEdge_isSome_iff (l : List ((String × String) × EdgeData))
    (k : String × String) :
    (lookupEdge l k).isSome = true ↔ ∃ e ∈ l, e.1 = k := by
  induction l with
  | nil => simp [lookupEdge]
  | cons e es ih =>
    by_cases he : e.1 = k
    · simp [lookupEdge, he]
    · simp only [lookupEdge, if_neg he, ih]
      constructor
      · intro ⟨x, hx, hxk⟩
        exact ⟨x, by simp [hx], hxk⟩
      · intro ⟨x, hx, hxk⟩
        rcases List.mem_cons.mp hx with h1 | h1
        · subst h1; exact absurd hxk he
        · exact ⟨x, h1, hxk⟩

theorem mem_succs_iff (g : Graph) (u v : String) :
    v ∈ succs g u ↔ ∃ e ∈ g.edges, e.1 = (u, v) := by
  unfold succs
  rw [List.mem_filterMap]
  constructor
  · intro ⟨e, he, heq⟩
    split at heq
    · rename_i h1
      simp only [Option.some_inj] at heq
      refine ⟨e, he, ?_⟩
      rw [Prod.ext_iff]
      exact ⟨h1, heq⟩
    · exact absurd heq (by simp)
  · intro ⟨e, he, heq⟩
    refine ⟨e, he, ?_⟩
    rw [Prod.ext_iff] at heq
    rw [if_pos heq.1, heq.2]

theorem hasEdgeB_iff_mem_succs (g : Graph) (u v : String) :
    hasEdgeB g u v = true ↔ v ∈ succs g u := by
  rw [mem_succs_iff]
  exact lookupEdge_isSome_iff g.edges (u, v)

/-- A closed visited set absorbs everything reachable from it. -/
theorem closed_reach (g : Graph) (visited : List String)
    (hclosed : ∀ v ∈ visited, ∀ w ∈ succs g v, w ∈ visited) :
    ∀ a b : String, Reach g a b → a ∈ visited → b ∈ visited := by
  intro a b h
  induction h with
  | refl => exact id
  | tail _ h2 ih =>
    intro ha
    exact hclosed _ (ih ha) _ ((hasEdgeB_iff_mem_succs g _ _).mp h2)

/-- Queue-entry invariant: the stored list is the reversed path from the
source to the entry's node. -/
def RevOK (g : Graph) (src : String) (e : String × List String) : Prop :=
  e.2.head? = some e.1 ∧ e.2.getLast? = some src ∧ IsPath g e.2.reverse

/-- BFS soundness: a returned list is an edge-path from the source to the
target. -/
theorem bfsAux_sound (g : Graph) (target src : String) :
    ∀ (fuel : Nat) (queue : List (String × List String))
      (visited : List String) (p : List String),
      (∀ e ∈ queue, RevOK g src e) →
      bfsAux g target fuel queue visited = some p →
      p.head? = some src ∧ p.getLast? = some target ∧ IsPath g p := by
  intro fuel
  induction fuel with
  | zero =>
    intro queue visited p _ h
    exact absurd h (by simp [bfsAux])
  | succ f ih =>
    intro queue visited p hq h
    cases queue with
    | nil => exact absurd h (by simp [bfsAux])
    | cons e qs =>
      obtain ⟨u, pu⟩ := e
      by_cases hu : u = target
      · have hsome : bfsAux g target (f + 1) ((u, pu) :: qs) visited =
            some pu.reverse := by
          show (if u = target then some pu.reverse else _) = _
          rw [if_pos hu]
        rw [hsome] at h
        cases h
        obtain ⟨hh, hl, hp⟩ := hq (u, pu) (by simp)
        refine ⟨?_, ?_, hp⟩
        · rw [List.head?_reverse]
          exact hl
        · rw [List.getLast?_reverse, hh, hu]
      · have hstep : bfsAux g target (f + 1) ((u, pu) :: qs) visited =
            bfsAux g target f
              (qs ++ (((succs g u).dedup).filter (fun v => v ∉ visited)).map
                (fun v => (v, v :: pu)))
              (visited ++ ((succs g u).dedup).filter (fun v => v ∉ visited)) := by
          show (if u = target then some pu.reverse else _) = _
          rw [if_neg hu]
        rw [hstep] at h
        apply ih _ _ _ _ h
        intro e2 he2
        rcases List.mem_append.mp he2 with h2 | h2
        · exact hq e2 (by simp [h2])
        · rw [List.mem_map] at h2
          obtain ⟨v, hv, hveq⟩ := h2
          obtain ⟨hh, hl, hp⟩ := hq (u, pu) (by simp)
          have hpu_ne : pu ≠ [] := by
            intro hcontra
            rw [hcontra] at hh
            simp at hh
          have hv_succ : v ∈ succs g u :=
            List.mem_dedup.mp (List.mem_filter.mp hv).1
          subst hveq
          refine ⟨rfl, ?_, ?_⟩
          · show (v :: pu).getLast? = some src
            cases pu with
            | nil => exact absurd rfl hpu_ne
            | cons a as =>
              rw [List.getLast?_cons_cons]
              exact hl
          · show IsPath g (v :: pu).reverse
            unfold IsPath
            rw [List.reverse_cons, List.chain'_append]
            refine ⟨hp, by simp, ?_⟩
            intro x hx y hy
            simp only [List.head?_cons, Option.mem_def, Option.some_inj] at hy
            rw [List.getLast?_reverse] at hx
            rw [hh] at hx
            simp only [Option.mem_def, Option.some_inj] at hx
            subst hx
            subst hy
            exact (hasEdgeB_iff_mem_succs g u v).mpr hv_succ

/-- BFS completeness: with the stated invariants and enough fuel, the
search cannot report `none` while the target is reachable from a visited
node. -/
theorem bfsAux_complete (g : Graph) (target src : String)
    (hwf : WFGraph g) :
    ∀ (fuel : Nat) (queue : List (String × List String))
      (visited : List String),
      visited.Nodup →
      (∀ v ∈ visited, v ∈ src :: nodeNames g) →
      (∀ e ∈ queue, e.1 ∈ visited) →
      (∀ v ∈ visited, (∀ e ∈ queue, e.1 ≠ v) → ∀ w ∈ succs g v, w ∈ visited) →
      (target ∈ visited → ∃ e ∈ queue, e.1 = target) →
      (∃ v ∈ visited, Reach g v target) →
      queue.length + (nodeNames g).length + 1 ≤ fuel + visited.length →
      bfsAux g target fuel queue visited ≠ none := by
  intro fuel
  induction fuel with
  | zero =>
    intro queue visited hnodup hsub hqsub hclosed htarget hreach hfuel
    exfalso
    have hlen : visited.length ≤ (nodeNames g).length + 1 := by
      have h1 : visited ⊆ src :: nodeNames g := hsub
      have h2 := (List.subperm_of_subset hnodup h1).length_le
      simpa using h2
    have hqnil : queue = [] := by
      cases queue with
      | nil => rfl
      | cons e qs => simp at hfuel; omega
    subst hqnil
    obtain ⟨v, hv, hr⟩ := hreach
    have hclosed2 : ∀ v ∈ visited, ∀ w ∈ succs g v, w ∈ visited := by
      intro v2 hv2 w hw
      exact hclosed v2 hv2 (by simp) w hw
    have htv : target ∈ visited := closed_reach g visited hclosed2 v target hr hv
    obtain ⟨e, he, _⟩ := htarget htv
    simp at he
  | succ f ih =>
    intro queue visited hnodup hsub hqsub hclosed htarget hreach hfuel
    cases queue with
    | nil =>
      exfalso
      obtain ⟨v, hv, hr⟩ := hreach
      have hclosed2 : ∀ v ∈ visited, ∀ w ∈ succs g v, w ∈ visited := by
        intro v2 hv2 w hw
        exact hclosed v2 hv2 (by simp) w hw
      have htv : target ∈ visited := closed_reach g visited hclosed2 v target hr hv
      obtain ⟨e, he, _⟩ := htarget htv
      simp at he
    | cons e qs =>
      obtain ⟨u, pu⟩ := e
      by_cases hu : u = target
      · show (if u = target then some pu.reverse else _) ≠ none
        rw [if_pos hu]
        simp
      · show (if u = target then some pu.reverse else _) ≠ none
        rw [if_neg hu]
        set nn := ((succs g u).dedup).filter (fun v => v ∉ visited) with hnn
        have hnn_nodup : nn.Nodup := (List.nodup_dedup _).filter _
        have hnn_fresh : ∀ v ∈ nn, v ∉ visited := by
          intro v hv
          have := (List.mem_filter.mp hv).2
          simpa using this
        have hnn_succ : ∀ v ∈ nn, v ∈ succs g u := by
          intro v hv
          exact List.mem_dedup.mp (List.mem_filter.mp hv).1
        have hnn_new : ∀ v, v ∈ succs g u → v ∉ visited → v ∈ nn := by
          intro v hv1 hv2
          rw [hnn]
          rw [List.mem_filter]
          exact ⟨List.mem_dedup.mpr hv1, by simpa using hv2⟩
        apply ih
        · exact List.Nodup.append hnodup hnn_nodup
            (fun a ha ha2 => hnn_fresh a ha2 ha)
        · intro v hv
          rcases List.mem_append.mp hv with h1 | h1
          · exact hsub v h1
          · have hs := hnn_succ v h1
            rw [mem_succs_iff] at hs
            obtain ⟨e2, he2, heq2⟩ := hs
            have := hwf e2 he2
            rw [heq2] at this
            exact List.mem_cons_of_mem _ this
        · intro e2 he2
          rcases List.mem_append.mp he2 with h1 | h1
          · exact List.mem_append_left _ (hqsub e2 (by simp [h1]))
          · rw [List.mem_map] at h1
            obtain ⟨v, hv, hveq⟩ := h1
            subst hveq
            exact List.mem_append_right _ hv
        · intro v hv hnoq w hw
          rcases List.mem_append.mp hv with h1 | h1
          · by_cases hvu : v = u
            · subst hvu
              by_cases hwv : w ∈ visited
              · exact List.mem_append_left _ hwv
              · exact List.mem_append_right _ (hnn_new w hw hwv)
            · have hold : ∀ e2 ∈ (u, pu) :: qs, e2.1 ≠ v := by
                intro e2 he2
                rcases List.mem_cons.mp he2 with h2 | h2
                · subst h2; exact fun hc => hvu hc.symm
                · exact hnoq e2 (List.mem_append_left _ h2)
              exact List.mem_append_left _ (hclosed v h1 hold w hw)
          · exfalso
            exact hnoq (v, v :: pu)
              (List.mem_append_right _ (List.mem_map_of_mem _ h1)) rfl
        · intro ht
          rcases List.mem_append.mp ht with h1 | h1
          · obtain ⟨e2, he2, heq2⟩ := htarget h1
            rcases List.mem_cons.mp he2 with h2 | h2
            · subst h2; exact absurd heq2 hu
            · exact ⟨e2, List.mem_append_left _ h2, heq2⟩
          · refine ⟨(target, target :: pu), ?_, rfl⟩
            exact List.mem_append_right _ (List.mem_map_of_mem _ h1)
        · obtain ⟨v, hv, hr⟩ := hreach
          exact ⟨v, List.mem_append_left _ hv, hr⟩
        · simp only [List.length_append, List.length_map, List.length_cons]
            at hfuel ⊢
          omega

theorem hasNode_iff (g : Graph) (n : String) :
    hasNode g n = true ↔ n ∈ nodeNames g := by
  unfold hasNode nodeNames
  rw [List.any_eq_true]
  constructor
  · intro ⟨x, hx, hxe⟩
    simp only [decide_eq_true_eq] at hxe
    rw [← hxe]
    exact List.mem_map_of_mem _ hx
  · intro h
    rw [List.mem_map] at h
    obtain ⟨x, hx, hxe⟩ := h
    exact ⟨x, hx, by simp [hxe]⟩

theorem nodeNames_ensureNode_mono (g : Graph) (n x : String)
    (h : x ∈ nodeNames g) : x ∈ nodeNames (ensureNode g n) := by
  unfold ensureNode
  split
  · exact h
  · unfold nodeNames at *
    simp only [List.map_append]
    exact List.mem_append_left _ h

theorem mem_nodeNames_ensureNode_self (g : Graph) (n : String) :
    n ∈ nodeNames (ensureNode g n) := by
  unfold ensureNode
  split
  · rename_i h
    exact (hasNode_iff g n).mp h
  · unfold nodeNames
    simp

theorem ensureNode_edges (g : Graph) (n : String) :
    (ensureNode g n).edges = g.edges := by
  unfold ensureNode
  split <;> rfl

theorem wf_ensureNode (g : Graph) (n : String) (h : WFGraph g) :
    WFGraph (ensureNode g n) := by
  intro e he
  rw [ensureNode_edges] at he
  exact nodeNames_ensureNode_mono g n _ (h e he)

theorem wf_addEdge (g : Graph) (u v : String) (d : EdgeData)
    (h : WFGraph g) : WFGraph (addEdge g u v d) := by
  unfold addEdge
  have hwf1 : WFGraph (ensureNode (ensureNode g u) v) :=
    wf_ensureNode _ _ (wf_ensureNode _ _ h)
  have hv : v ∈ nodeNames (ensureNode (ensureNode g u) v) :=
    mem_nodeNames_ensureNode_self _ _
  show WFGraph
    (if (lookupEdge (ensureNode (ensureNode g u) v).edges (u, v)).isSome = true
     then { ensureNode (ensureNode g u) v with
            edges := (ensureNode (ensureNode g u) v).edges.map
              (fun x => if x.1 = (u, v) then ((u, v), d) else x) }
     else { ensureNode (ensureNode g u) v with
            edges := (ensureNode (ensureNode g u) v).edges ++ [((u, v), d)] })
  split
  · intro e he
    simp only [List.mem_map] at he
    obtain ⟨x, hx, hxe⟩ := he
    by_cases hxk : x.1 = (u, v)
    · rw [if_pos hxk] at hxe
      rw [← hxe]
      exact hv
    · rw [if_neg hxk] at hxe
      rw [← hxe]
      exact hwf1 x hx
  · intro e he
    rcases List.mem_append.mp he with h1 | h1
    · exact hwf1 e h1
    · simp only [List.mem_singleton] at h1
      rw [h1]
      exact hv

theorem wf_addRelationship (g : Graph) (rel : RelMeta) (h : WFGraph g) :
    WFGraph (addRelationship g rel) :=
  wf_addEdge _ _ _ _ (wf_addEdge _ _ _ _ h)

theorem addNodeAttrs_edges (g : Graph) (n : String) (d : NodeData) :
    (addNodeAttrs g n d).edges = g.edges := by
  unfold addNodeAttrs
  split <;> rfl

theorem wf_build_graph (md : SchemaMeta) : WFGraph (build_graph md) := by
  unfold build_graph
  have h1 : ∀ (ts : List TableMeta) (g : Graph), g.edges = [] →
      (ts.foldl (fun g t =>
        addNodeAttrs g t.name ⟨t.tdescription, t.tsource, t.columns⟩) g).edges
        = [] := by
    intro ts
    induction ts with
    | nil => intro g hg; exact hg
    | cons t rest ih =>
      intro g hg
      rw [List.foldl_cons]
      exact ih _ (by rw [addNodeAttrs_edges]; exact hg)
  have h2 : ∀ (rels : List RelMeta) (g : Graph), WFGraph g →
      WFGraph (rels.foldl addRelationship g) := by
    intro rels
    induction rels with
    | nil => intro g hg; exact hg
    | cons r rest ih =>
      intro g hg
      rw [List.foldl_cons]
      exact ih _ (wf_addRelationship _ _ hg)
  apply h2
  intro e he
  rw [h1 md.tables ⟨[], []⟩ rfl] at he
  simp at he

/-! ## `SchemaGraph.find_join_path` -/

/-- One entry of the `joins` list. -/
structure JoinEntry where
  jfrom : String
  jto : String
  condition : String
  jtype : String
  deriving DecidableEq, Repr

/-- The result dict of `find_join_path`. -/
structure JoinPath where
  path : List String
  joins : List JoinEntry
  hop_count : Nat
  deriving DecidableEq, Repr

/-- The join-extraction loop: one entry per adjacent pair of the path,
reading `graph.edges[path[i], path[i+1]]` (guaranteed present for a path
returned by the shortest-path search; `.get` defaults model the
`edge_data.get(key, "")` reads). -/
def joinsOf (g : Graph) (path : List String) : List JoinEntry :=
  (path.zip path.tail).map (fun e =>
    ⟨e.1, e.2,
      ((getEdge g e.1 e.2).map (fun d => d.join_condition)).getD "",
      ((getEdge g e.1 e.2).map (fun d => d.etype)).getD ""⟩)

/-- `SchemaGraph.find_join_path`. -/
def find_join_path (g : Graph) (from_table to_table : String) :
    Option JoinPath :=
  if hasNode g from_table = false ∨ hasNode g to_table = false then none
  else
    match shortest_path g from_table to_table with
    | none => none
    | some path => some ⟨path, joinsOf g path, path.length - 1⟩

theorem chain_to_reach (g : Graph) :
    ∀ (p : List String) (a b : String),
      IsPath g p → p.head? = some a → p.getLast? = some b → Reach g a b := by
  intro p
  induction p with
  | nil =>
    intro a b _ hh _
    simp at hh
  | cons x rest ih =>
    intro a b hp hh hl
    simp only [List.head?_cons, Option.some_inj] at hh
    subst hh
    cases rest with
    | nil =>
      simp only [List.getLast?_singleton, Option.some_inj] at hl
      subst hl
      exact Relation.ReflTransGen.refl
    | cons y rest2 =>
      have hcc := List.chain'_cons.mp hp
      have hrest : Reach g y b := by
        apply ih y b hcc.2 rfl
        rw [← hl]
        exact (List.getLast?_cons_cons).symm
      exact Relation.ReflTransGen.head hcc.1 hrest

theorem isPath_zip (g : Graph) :
    ∀ p : List String, IsPath g p →
      ∀ e ∈ p.zip p.tail, hasEdgeB g e.1 e.2 = true := by
  intro p
  induction p with
  | nil =>
    intro _ e he
    simp at he
  | cons x rest ih =>
    intro hp e he
    cases rest with
    | nil => simp at he
    | cons y rest2 =>
      simp only [List.tail_cons, List.zip_cons_cons] at he
      rcases List.mem_cons.mp he with h1 | h1
      · subst h1
        exact (List.chain'_cons.mp hp).1
      · exact ih (List.chain'_cons.mp hp).2 e (by simpa using h1)

/-- C6: `find_join_path` returns `none` exactly when an endpoint is
absent from the graph or no connecting edge-chain exists; a returned
`JoinPath` has `hop_count = len(path) - 1`, a path running from the
source table to the target table, and one `joins` entry per adjacent path
pair, built from that pair's edge attributes (which exist). -/
theorem C6_find_join_path (md : SchemaMeta) (a b : String) :
    (find_join_path (build_graph md) a b = none ↔
      (hasNode (build_graph md) a = false ∨
        hasNode (build_graph md) b = false ∨
        ¬ Reach (build_graph md) a b)) ∧
    (∀ jp : JoinPath, find_join_path (build_graph md) a b = some jp →
      jp.hop_count = jp.path.length - 1 ∧
      jp.path.head? = some a ∧
      jp.path.getLast? = some b ∧
      jp.joins = joinsOf (build_graph md) jp.path ∧
      jp.joins.length = jp.path.length - 1 ∧
      (∀ e ∈ jp.path.zip jp.path.tail,
        ∃ d, getEdge (build_graph md) e.1 e.2 = some d)) := by
  set g := build_graph md with hg
  have hwf : WFGraph g := wf_build_graph md
  have hinit : ∀ e ∈ [(a, [a])], RevOK g a e := by
    intro e he
    simp only [List.mem_singleton] at he
    subst he
    exact ⟨rfl, rfl, by simp [IsPath]⟩
  constructor
  · constructor
    · intro hnone
      by_cases ha : hasNode g a = false
      · exact Or.inl ha
      · by_cases hb : hasNode g b = false
        · exact Or.inr (Or.inl hb)
        · refine Or.inr (Or.inr ?_)
          intro hr
          unfold find_join_path at hnone
          rw [if_neg (by simp [ha, hb])] at hnone
          cases hsp : shortest_path g a b with
          | some p => rw [hsp] at hnone; simp at hnone
          | none =>
            unfold shortest_path at hsp
            have hcomplete := bfsAux_complete g b a hwf
              (g.nodes.length + 1) [(a, [a])] [a]
              (by simp)
              (by intro v hv; simp only [List.mem_singleton] at hv; simp [hv])
              (by intro e he; simp only [List.mem_singleton] at he; simp [he])
              (by
                intro v hv hq w hw
                exfalso
                simp only [List.mem_singleton] at hv
                exact hq (a, [a]) (by simp) (by simp [hv]))
              (by
                intro ht
                simp only [List.mem_singleton] at ht
                exact ⟨(a, [a]), by simp, by simp [ht]⟩)
              ⟨a, by simp, hr⟩
              (by
                have hnn : (nodeNames g).length = g.nodes.length := by
                  unfold nodeNames
                  rw [List.length_map]
                simp only [List.length_cons, List.length_nil, hnn]
                omega)
            exact hcomplete hsp
    · intro hor
      unfold find_join_path
      rcases hor with h | h | h
      · rw [if_pos (Or.inl h)]
      · rw [if_pos (Or.inr h)]
      · by_cases hab : hasNode g a = false ∨ hasNode g b = false
        · rw [if_pos hab]
        · rw [if_neg hab]
          cases hsp : shortest_path g a b with
          | none => rfl
          | some p =>
            exfalso
            apply h
            unfold shortest_path at hsp
            obtain ⟨hh, hl, hp⟩ := bfsAux_sound g b a _ _ _ _ hinit hsp
            exact chain_to_reach g p a b hp hh hl
  · intro jp hjp
    unfold find_join_path at hjp
    split at hjp
    · exact absurd hjp (by simp)
    · cases hsp : shortest_path g a b with
      | none => rw [hsp] at hjp; exact absurd hjp (by simp)
      | some p =>
        rw [hsp] at hjp
        simp only [Option.some_inj] at hjp
        subst hjp
        unfold shortest_path at hsp
        obtain ⟨hh, hl, hp⟩ := bfsAux_sound g b a _ _ _ _ hinit hsp
        have hzip : ∀ e ∈ p.zip p.tail, hasEdgeB g e.1 e.2 = true :=
          isPath_zip g p hp
        refine ⟨rfl, hh, hl, rfl, ?_, ?_⟩
        · show (joinsOf g p).length = p.length - 1
          unfold joinsOf
          rw [List.length_map, List.length_zip, List.length_tail]
          have hne : p ≠ [] := by
            intro hc
            rw [hc] at hh
            simp at hh
          have : 1 ≤ p.length := List.length_pos.mpr hne
          omega
        · intro e he
          have := hzip e he
          unfold hasEdgeB at this
          exact Option.isSome_iff_exists.mp this

/-- Witness for C6 on the spec's A–B–C example graph. -/
theorem C6_find_join_path_witness :
    (JoinPath.mk ["A", "B", "C"]
        [⟨"A", "B", "A.x = B.y", "fk"⟩, ⟨"B", "C", "B.z = C.w", "fk"⟩]
        2).hop_count =
      (JoinPath.mk ["A", "B", "C"]
        [⟨"A", "B", "A.x = B.y", "fk"⟩, ⟨"B", "C", "B.z = C.w", "fk"⟩]
        2).path.length - 1 ∧
    (JoinPath.mk ["A", "B", "C"]
        [⟨"A", "B", "A.x = B.y", "fk"⟩, ⟨"B", "C", "B.z = C.w", "fk"⟩]
        2).path.head? = some "A" ∧
    (JoinPath.mk ["A", "B", "C"]
        [⟨"A", "B", "A.x = B.y", "fk"⟩, ⟨"B", "C", "B.z = C.w", "fk"⟩]
        2).path.getLast? = some "C" ∧
    (JoinPath.mk ["A", "B", "C"]
        [⟨"A", "B", "A.x = B.y", "fk"⟩, ⟨"B", "C", "B.z = C.w", "fk"⟩]
        2).joins =
      joinsOf (build_graph ⟨[], [⟨"A.x", "B.y", "fk", ""⟩, ⟨"B.z", "C.w", "fk", ""⟩]⟩)
        (JoinPath.mk ["A", "B", "C"]
          [⟨"A", "B", "A.x = B.y", "fk"⟩, ⟨"B", "C", "B.z = C.w", "fk"⟩]
          2).path ∧
    (JoinPath.mk ["A", "B", "C"]
        [⟨"A", "B", "A.x = B.y", "fk"⟩, ⟨"B", "C", "B.z = C.w", "fk"⟩]
        2).joins.length =
      (JoinPath.mk ["A", "B", "C"]
        [⟨"A", "B", "A.x = B.y", "fk"⟩, ⟨"B", "C", "B.z = C.w", "fk"⟩]
        2).path.length - 1 ∧
    (∀ e ∈ (JoinPath.mk ["A", "B", "C"]
        [⟨"A", "B", "A.x = B.y", "fk"⟩, ⟨"B", "C", "B.z = C.w", "fk"⟩]
        2).path.zip
        (JoinPath.mk ["A", "B", "C"]
          [⟨"A", "B", "A.x = B.y", "fk"⟩, ⟨"B", "C", "B.z = C.w", "fk"⟩]
          2).path.tail,
      ∃ d, getEdge
        (build_graph ⟨[], [⟨"A.x", "B.y", "fk", ""⟩, ⟨"B.z", "C.w", "fk", ""⟩]⟩)
        e.1 e.2 = some d) :=
  (C6_find_join_path ⟨[], [⟨"A.x", "B.y", "fk", ""⟩, ⟨"B.z", "C.w", "fk", ""⟩]⟩
    "A" "C").2
    (JoinPath.mk ["A", "B", "C"]
      [⟨"A", "B", "A.x = B.y", "fk"⟩, ⟨"B", "C", "B.z = C.w", "fk"⟩] 2)
    rfl


/-! ## `get_multi_hop_path` (graph_rag.py lines 271-347)

The greedy Steiner-tree approximation: starting from the first requested
table, repeatedly pick the shortest path from any already-visited table
to any still-remaining table, absorb its joins and nodes, and drop the
chosen table from the remaining set.  Python iterates over `set`s; the
embedding fixes the iteration order to insertion order (every property
proved below is insensitive to that order). -/

/-- The result dict of `get_multi_hop_path`. -/
structure MultiHop where
  tables : List String
  path : List String
  joins : List JoinEntry
  total_hops : Nat
  deriving DecidableEq, Repr

/-- The ordered (from, to) pairs of a join list (the duplicate guard of
graph_rag.py line 325). -/
def joinPairs (joins : List JoinEntry) : List (String × String) :=
  joins.map (fun j => (j.jfrom, j.jto))

/-- The double loop of lines 307-316: every shortest path from a visited
table to a remaining table; pairs raising `NetworkXNoPath` are skipped. -/
def candidatePaths (g : Graph) (visited remaining : List String) :
    List (String × List String) :=
  visited.flatMap (fun v =>
    remaining.filterMap (fun t =>
      (shortest_path g v t).map (fun p => (t, p))))

/-- The strict-minimum selection of lines 311-314: the first candidate of
minimal path length wins. -/
def pickBest : List (String × List String) → Option (String × List String)
  | [] => none
  | c :: cs => some (cs.foldl
      (fun best cand => if cand.2.length < best.2.length then cand else best) c)

/-- One step of the join-extraction loop of lines 323-332: append an
entry for the pair unless its (from, to) pair is already present. -/
def addJoinsStep (g : Graph) (js : List JoinEntry) (e : String × String) :
    List JoinEntry :=
  if (e.1, e.2) ∈ joinPairs js then js
  else js ++ [⟨e.1, e.2,
    ((getEdge g e.1 e.2).map (fun d => d.join_condition)).getD "",
    ((getEdge g e.1 e.2).map (fun d => d.etype)).getD ""⟩]

/-- Lines 323-332 over all adjacent pairs of the best path. -/
def addJoins (g : Graph) (joins : List JoinEntry) (path : List String) :
    List JoinEntry :=
  (path.zip path.tail).foldl (addJoinsStep g) joins

/-- Append-if-absent: `visited_tables.add` and the guarded
`ordered_path.append` of lines 335-338. -/
def insertNew (l : List String) (x : String) : List String :=
  if x ∈ l then l else l ++ [x]

/-- The while-loop of lines 301-340.  The fuel is the size of the
remaining set, which shrinks by exactly one per iteration. -/
def multiHopLoop (g : Graph) :
    Nat → List JoinEntry → List String → List String → List String →
      Option (List String × List JoinEntry)
  | 0, all_joins, _, ordered, remaining =>
    if remaining = [] then some (ordered, all_joins) else none
  | fuel + 1, all_joins, visited, ordered, remaining =>
    if remaining = [] then some (ordered, all_joins)
    else
      match pickBest (candidatePaths g visited remaining) with
      | none => none
      | some (best_next, best_path) =>
        multiHopLoop g fuel (addJoins g all_joins best_path)
          (best_path.foldl insertNew visited)
          (best_path.foldl insertNew ordered)
          (remaining.erase best_next)

/-- `SchemaGraph.get_multi_hop_path`. -/
def get_multi_hop_path (g : Graph) (tables : List String) :
    Option MultiHop :=
  if tables.length < 2 then none
  else if tables.any (fun t => ! hasNode g t) then none
  else
    match multiHopLoop g ((tables.drop 1).dedup).length []
        [tables.headD ""] [tables.headD ""] ((tables.drop 1).dedup) with
    | none => none
    | some (ordered, joins) => some ⟨tables, ordered, joins, joins.length⟩

theorem insertNew_mono (l : List String) (x a : String) (h : a ∈ l) :
    a ∈ insertNew l x := by
  unfold insertNew
  split
  · exact h
  · exact List.mem_append.mpr (Or.inl h)

theorem foldl_insertNew_mono :
    ∀ (xs l : List String) (a : String), a ∈ l → a ∈ xs.foldl insertNew l := by
  intro xs
  induction xs with
  | nil => intro l a h; exact h
  | cons x rest ih =>
    intro l a h
    exact ih (insertNew l x) a (insertNew_mono l x a h)

theorem mem_foldl_insertNew :
    ∀ (xs l : List String) (a : String), a ∈ xs → a ∈ xs.foldl insertNew l := by
  intro xs
  induction xs with
  | nil => intro l a h; simp at h
  | cons x rest ih =>
    intro l a h
    rcases List.mem_cons.mp h with h1 | h1
    · subst h1
      exact foldl_insertNew_mono rest (insertNew l a) a (by
        unfold insertNew
        split
        · assumption
        · exact List.mem_append.mpr (Or.inr (by simp)))
    · exact ih _ a h1

theorem foldl_insertNew_sub :
    ∀ (xs l : List String) (a : String),
      a ∈ xs.foldl insertNew l → a ∈ l ∨ a ∈ xs := by
  intro xs
  induction xs with
  | nil => intro l a h; exact Or.inl h
  | cons x rest ih =>
    intro l a h
    rcases ih (insertNew l x) a h with h1 | h1
    · unfold insertNew at h1
      split at h1
      · exact Or.inl h1
      · rcases List.mem_append.mp h1 with h2 | h2
        · exact Or.inl h2
        · simp only [List.mem_singleton] at h2
          subst h2
          exact Or.inr (by simp)
    · exact Or.inr (by simp [h1])

theorem foldlBest_mem :
    ∀ (cs : List (String × List String)) (c : String × List String),
      cs.foldl (fun best cand =>
        if cand.2.length < best.2.length then cand else best) c ∈ c :: cs := by
  intro cs
  induction cs with
  | nil => intro c; simp
  | cons d ds ih =>
    intro c
    simp only [List.foldl_cons]
    by_cases hd : d.2.length < c.2.length
    · rw [if_pos hd]
      rcases List.mem_cons.mp (ih d) with h | h
      · rw [h]
        simp
      · simp [h]
    · rw [if_neg hd]
      rcases List.mem_cons.mp (ih c) with h | h
      · rw [h]
        simp
      · simp [h]

theorem pickBest_eq_some (l : List (String × List String))
    (r : String × List String) (h : pickBest l = some r) : r ∈ l := by
  cases l with
  | nil => exact absurd h (by simp [pickBest])
  | cons c cs =>
    have h2 : cs.foldl (fun best cand =>
        if cand.2.length < best.2.length then cand else best) c = r := by
      have := h
      unfold pickBest at this
      exact Option.some_inj.mp this
    rw [← h2]
    exact foldlBest_mem cs c

theorem pickBest_ne_none (l : List (String × List String)) (h : l ≠ []) :
    pickBest l ≠ none := by
  cases l with
  | nil => exact absurd rfl h
  | cons c cs => simp [pickBest]

theorem mem_candidatePaths (g : Graph) (visited remaining : List String)
    (c : String × List String) :
    c ∈ candidatePaths g visited remaining ↔
      ∃ v ∈ visited, c.1 ∈ remaining ∧ shortest_path g v c.1 = some c.2 := by
  unfold candidatePaths
  rw [List.mem_flatMap]
  constructor
  · intro ⟨v, hv, hc⟩
    rw [List.mem_filterMap] at hc
    obtain ⟨t, ht, hmap⟩ := hc
    cases hsp : shortest_path g v t with
    | none => rw [hsp] at hmap; exact absurd hmap (by simp)
    | some p =>
      rw [hsp] at hmap
      have hmap2 : some ((t, p) : String × List String) = some c := hmap
      obtain rfl : (t, p) = c := Option.some_inj.mp hmap2
      exact ⟨v, hv, ht, hsp⟩
  · intro ⟨v, hv, ht, hsp⟩
    refine ⟨v, hv, List.mem_filterMap.mpr ⟨c.1, ht, ?_⟩⟩
    rw [hsp]
    rfl

theorem joinPairs_append (js : List JoinEntry) (j : JoinEntry) :
    joinPairs (js ++ [j]) = joinPairs js ++ [(j.jfrom, j.jto)] := by
  unfold joinPairs
  rw [List.map_append]
  rfl

theorem addJoinsStep_nodup (g : Graph) (js : List JoinEntry)
    (e : String × String) (h : (joinPairs js).Nodup) :
    (joinPairs (addJoinsStep g js e)).Nodup := by
  unfold addJoinsStep
  split
  · exact h
  · rename_i hmem
    rw [joinPairs_append]
    rw [List.nodup_append]
    refine ⟨h, by simp, ?_⟩
    intro x hx hx2
    simp only [List.mem_singleton] at hx2
    subst hx2
    exact hmem hx

theorem foldl_addJoinsStep_nodup (g : Graph) :
    ∀ (pairs : List (String × String)) (js : List JoinEntry),
      (joinPairs js).Nodup →
      (joinPairs (pairs.foldl (addJoinsStep g) js)).Nodup := by
  intro pairs
  induction pairs with
  | nil => intro js h; exact h
  | cons e rest ih =>
    intro js h
    exact ih (addJoinsStep g js e) (addJoinsStep_nodup g js e h)

theorem addJoins_nodup (g : Graph) (path : List String)
    (js : List JoinEntry) (h : (joinPairs js).Nodup) :
    (joinPairs (addJoins g js path)).Nodup :=
  foldl_addJoinsStep_nodup g (path.zip path.tail) js h

theorem mem_of_getLast_eq :
    ∀ (l : List String) (x : String), l.getLast? = some x → x ∈ l := by
  intro l
  induction l with
  | nil => intro x h; simp at h
  | cons a rest ih =>
    intro x h
    cases rest with
    | nil =>
      simp only [List.getLast?_singleton, Option.some_inj] at h
      simp [h]
    | cons b rest2 =>
      rw [List.getLast?_cons_cons] at h
      exact List.mem_cons.mpr (Or.inr (ih x h))

theorem path_nodes_reach (g : Graph) :
    ∀ (p : List String) (v : String), IsPath g p → p.head? = some v →
      ∀ x ∈ p, Reach g v x := by
  intro p
  induction p with
  | nil => intro v _ hh x hx; simp at hx
  | cons a rest ih =>
    intro v hp hh x hx
    simp only [List.head?_cons, Option.some_inj] at hh
    subst hh
    rcases List.mem_cons.mp hx with h1 | h1
    · subst h1
      exact Relation.ReflTransGen.refl
    · cases rest with
      | nil => simp at h1
      | cons b rest2 =>
        have hcc := List.chain'_cons.mp hp
        exact Relation.ReflTransGen.head hcc.1 (ih b hcc.2 rfl x h1)

theorem shortest_path_sound (g : Graph) (s t : String) (p : List String)
    (h : shortest_path g s t = some p) :
    p.head? = some s ∧ p.getLast? = some t ∧ IsPath g p := by
  unfold shortest_path at h
  apply bfsAux_sound g t s _ _ _ _ ?_ h
  intro e he
  simp only [List.mem_singleton] at he
  subst he
  exact ⟨rfl, rfl, by simp [IsPath]⟩

theorem shortest_path_complete (g : Graph) (hwf : WFGraph g)
    (s t : String) (hr : Reach g s t) : shortest_path g s t ≠ none := by
  unfold shortest_path
  apply bfsAux_complete g t s hwf (g.nodes.length + 1) [(s, [s])] [s]
    (by simp)
    (by intro v hv; simp only [List.mem_singleton] at hv; simp [hv])
    (by intro e he; simp only [List.mem_singleton] at he; simp [he])
    (by
      intro v hv hq w hw
      exfalso
      simp only [List.mem_singleton] at hv
      exact hq (s, [s]) (by simp) (by simp [hv]))
    (by
      intro ht
      simp only [List.mem_singleton] at ht
      exact ⟨(s, [s]), by simp, by simp [ht]⟩)
    ⟨s, by simp, hr⟩
    (by
      have hnn : (nodeNames g).length = g.nodes.length := by
        unfold nodeNames
        rw [List.length_map]
      simp only [List.length_cons, List.length_nil, hnn]
      omega)

theorem multiHopLoop_nil (g : Graph) (fuel : Nat) (joins : List JoinEntry)
    (visited ordered : List String) :
    multiHopLoop g fuel joins visited ordered [] = some (ordered, joins) := by
  cases fuel with
  | zero => rfl
  | succ f => rfl

theorem multiHopLoop_zero (g : Graph) (joins : List JoinEntry)
    (visited ordered remaining : List String) (h : remaining ≠ []) :
    multiHopLoop g 0 joins visited ordered remaining = none := by
  show (if remaining = [] then _ else none) = none
  rw [if_neg h]

theorem multiHopLoop_step_none (g : Graph) (f : Nat)
    (joins : List JoinEntry) (visited ordered remaining : List String)
    (h : remaining ≠ [])
    (hpick : pickBest (candidatePaths g visited remaining) = none) :
    multiHopLoop g (f + 1) joins visited ordered remaining = none := by
  show (if remaining = [] then _
    else match pickBest (candidatePaths g visited remaining) with
      | none => none
      | some (best_next, best_path) =>
        multiHopLoop g f (addJoins g joins best_path)
          (best_path.foldl insertNew visited)
          (best_path.foldl insertNew ordered)
          (remaining.erase best_next)) = none
  rw [if_neg h, hpick]

theorem multiHopLoop_step (g : Graph) (f : Nat) (joins : List JoinEntry)
    (visited ordered remaining : List String) (bn : String)
    (bp : List String) (h : remaining ≠ [])
    (hpick : pickBest (candidatePaths g visited remaining) = some (bn, bp)) :
    multiHopLoop g (f + 1) joins visited ordered remaining =
      multiHopLoop g f (addJoins g joins bp) (bp.foldl insertNew visited)
        (bp.foldl insertNew ordered) (remaining.erase bn) := by
  conv_lhs => rw [multiHopLoop]
  rw [if_neg h, hpick]

/-- `add_edge` inserts exactly the ordered pair `(u, v)` into the edge
relation. -/
theorem hasEdgeB_addEdge (g : Graph) (u v a b : String) (d : EdgeData) :
    hasEdgeB (addEdge g u v d) a b =
      if (a, b) = (u, v) then true else hasEdgeB g a b := by
  by_cases h : (a, b) = (u, v)
  · rw [if_pos h]
    rw [Prod.mk.injEq] at h
    obtain ⟨h1, h2⟩ := h
    subst h1
    subst h2
    unfold hasEdgeB
    rw [getEdge_addEdge_self]
    rfl
  · rw [if_neg h]
    unfold hasEdgeB
    rw [getEdge_addEdge_other g u v a b d h]

/-- Symmetry of the edge relation. -/
def EdgeSymm (g : Graph) : Prop :=
  ∀ u v : String, hasEdgeB g u v = true → hasEdgeB g v u = true

/-- Adding both directions of one pair preserves edge symmetry. -/
theorem edgeSymm_addEdge2 (g : Graph) (x y : String) (d1 d2 : EdgeData)
    (hs : EdgeSymm g) : EdgeSymm (addEdge (addEdge g x y d1) y x d2) := by
  intro u v h
  rw [hasEdgeB_addEdge, hasEdgeB_addEdge] at h
  rw [hasEdgeB_addEdge, hasEdgeB_addEdge]
  by_cases h1 : (v, u) = (y, x)
  · rw [if_pos h1]
  · rw [if_neg h1]
    by_cases h2 : (v, u) = (x, y)
    · rw [if_pos h2]
    · rw [if_neg h2]
      have h1b : ¬ ((u, v) = (x, y)) := by
        rw [Prod.mk.injEq]
        rintro ⟨ha, hb⟩
        apply h1
        rw [Prod.mk.injEq]
        exact ⟨hb, ha⟩
      have h2b : ¬ ((u, v) = (y, x)) := by
        rw [Prod.mk.injEq]
        rintro ⟨ha, hb⟩
        apply h2
        rw [Prod.mk.injEq]
        exact ⟨hb, ha⟩
      rw [if_neg h2b, if_neg h1b] at h
      exact hs u v h

theorem foldl_addNodeAttrs_edges (ts : List TableMeta) :
    ∀ g : Graph,
      (ts.foldl (fun g t =>
        addNodeAttrs g t.name ⟨t.tdescription, t.tsource, t.columns⟩) g).edges =
      g.edges := by
  induction ts with
  | nil => intro g; rfl
  | cons t rest ih =>
    intro g
    rw [List.foldl_cons, ih, addNodeAttrs_edges]

theorem edgeSymm_foldl_addRelationship :
    ∀ (rels : List RelMeta) (g : Graph), EdgeSymm g →
      EdgeSymm (rels.foldl addRelationship g) := by
  intro rels
  induction rels with
  | nil => intro g h; exact h
  | cons r rest ih =>
    intro g h
    rw [List.foldl_cons]
    apply ih
    exact edgeSymm_addEdge2 g (splitTable r.rfrom).1 (splitTable r.rto).1
      ⟨(splitTable r.rfrom).2, (splitTable r.rto).2, r.rtype,
        r.rdescription, r.rfrom ++ " = " ++ r.rto⟩
      ⟨(splitTable r.rto).2, (splitTable r.rfrom).2, r.rtype,
        r.rdescription, r.rto ++ " = " ++ r.rfrom⟩ h

/-- `_build_graph` inserts every edge together with its reverse, so the
built edge relation is symmetric. -/
theorem edgeSymm_build_graph (md : SchemaMeta) : EdgeSymm (build_graph md) := by
  show EdgeSymm (md.relationships.foldl addRelationship
    (md.tables.foldl (fun g t =>
      addNodeAttrs g t.name ⟨t.tdescription, t.tsource, t.columns⟩) ⟨[], []⟩))
  apply edgeSymm_foldl_addRelationship
  intro u v h
  unfold hasEdgeB getEdge at h
  rw [foldl_addNodeAttrs_edges] at h
  simp [lookupEdge] at h

/-- Over a symmetric edge relation, reachability is symmetric. -/
theorem reach_symm (g : Graph) (hs : EdgeSymm g) {a b : String}
    (h : Reach g a b) : Reach g b a := by
  induction h with
  | refl => exact Relation.ReflTransGen.refl
  | tail h1 h2 ih => exact Relation.ReflTransGen.head (hs _ _ h2) ih

/-- While every remaining table is reachable from `t0` and some visited
table equals `t0`, the greedy loop succeeds; the returned ordered path
extends the accumulator and covers the remaining set, and the join
pairs stay duplicate-free. -/
theorem multiHopLoop_success (g : Graph) (hwf : WFGraph g) (t0 : String) :
    ∀ (fuel : Nat) (joins : List JoinEntry)
      (visited ordered remaining : List String),
      remaining.length ≤ fuel →
      t0 ∈ visited →
      (∀ t ∈ remaining, Reach g t0 t) →
      (joinPairs joins).Nodup →
      ∃ ordered2 joins2,
        multiHopLoop g fuel joins visited ordered remaining =
          some (ordered2, joins2) ∧
        (∀ x ∈ ordered, x ∈ ordered2) ∧
        (∀ t ∈ remaining, t ∈ ordered2) ∧
        (joinPairs joins2).Nodup := by
  intro fuel
  induction fuel with
  | zero =>
    intro joins visited ordered remaining hlen _ _ hnodup
    have hrem : remaining = [] := List.length_eq_zero.mp (Nat.le_zero.mp hlen)
    subst hrem
    exact ⟨ordered, joins, multiHopLoop_nil g 0 joins visited ordered,
      fun x h => h, by simp, hnodup⟩
  | succ f ih =>
    intro joins visited ordered remaining hlen ht0 hreach hnodup
    by_cases hrem : remaining = []
    · subst hrem
      exact ⟨ordered, joins, multiHopLoop_nil g (f + 1) joins visited ordered,
        fun x h => h, by simp, hnodup⟩
    · obtain ⟨t1, ht1⟩ : ∃ t1, t1 ∈ remaining := by
        cases remaining with
        | nil => exact absurd rfl hrem
        | cons a as => exact ⟨a, by simp⟩
      have hspne : shortest_path g t0 t1 ≠ none :=
        shortest_path_complete g hwf t0 t1 (hreach t1 ht1)
      cases hsp2 : shortest_path g t0 t1 with
      | none => exact absurd hsp2 hspne
      | some p1 =>
        have hcand : (t1, p1) ∈ candidatePaths g visited remaining :=
          (mem_candidatePaths g visited remaining (t1, p1)).mpr
            ⟨t0, ht0, ht1, hsp2⟩
        have hcne : candidatePaths g visited remaining ≠ [] := by
          intro hc
          rw [hc] at hcand
          simp at hcand
        cases hpick : pickBest (candidatePaths g visited remaining) with
        | none => exact absurd hpick (pickBest_ne_none _ hcne)
        | some best =>
          obtain ⟨bn, bp⟩ := best
          obtain ⟨v, hv, hbn, hbp⟩ :=
            (mem_candidatePaths g visited remaining (bn, bp)).mp
              (pickBest_eq_some _ _ hpick)
          dsimp only at hbn hbp
          obtain ⟨hbh, hbl, hbpath⟩ := shortest_path_sound g v bn bp hbp
          have hlen2 : (remaining.erase bn).length ≤ f := by
            rw [List.length_erase_of_mem hbn]
            have hpos := List.length_pos.mpr hrem
            omega
          have ht02 : t0 ∈ bp.foldl insertNew visited :=
            foldl_insertNew_mono bp visited t0 ht0
          have hreach2 : ∀ t ∈ remaining.erase bn, Reach g t0 t := by
            intro t ht
            exact hreach t (List.mem_of_mem_erase ht)
          have hnodup2 : (joinPairs (addJoins g joins bp)).Nodup :=
            addJoins_nodup g bp joins hnodup
          obtain ⟨o2, j2, heq, hsub, hcov, hnd⟩ :=
            ih (addJoins g joins bp) (bp.foldl insertNew visited)
              (bp.foldl insertNew ordered) (remaining.erase bn)
              hlen2 ht02 hreach2 hnodup2
          refine ⟨o2, j2, ?_, ?_, ?_, hnd⟩
          · rw [multiHopLoop_step g f joins visited ordered remaining bn bp
              hrem hpick]
            exact heq
          · intro x hx
            exact hsub x (foldl_insertNew_mono bp ordered x hx)
          · intro t ht
            by_cases htb : t = bn
            · subst htb
              have hbp_mem : t ∈ bp := mem_of_getLast_eq bp t hbl
              exact hsub t (mem_foldl_insertNew bp ordered t hbp_mem)
            · exact hcov t ((List.mem_erase_of_ne htb).mpr ht)

/-- If some remaining table is unreachable from `t0` while every visited
table is reachable from `t0`, the greedy loop fails. -/
theorem multiHopLoop_fail (g : Graph) (t0 tbad : String)
    (hbad : ¬ Reach g t0 tbad) :
    ∀ (fuel : Nat) (joins : List JoinEntry)
      (visited ordered remaining : List String),
      tbad ∈ remaining →
      (∀ v ∈ visited, Reach g t0 v) →
      multiHopLoop g fuel joins visited ordered remaining = none := by
  intro fuel
  induction fuel with
  | zero =>
    intro joins visited ordered remaining hmem _
    apply multiHopLoop_zero
    intro h
    rw [h] at hmem
    simp at hmem
  | succ f ih =>
    intro joins visited ordered remaining hmem hvis
    have hne : remaining ≠ [] := by
      intro h
      rw [h] at hmem
      simp at hmem
    cases hpick : pickBest (candidatePaths g visited remaining) with
    | none =>
      exact multiHopLoop_step_none g f joins visited ordered remaining
        hne hpick
    | some best =>
      obtain ⟨bn, bp⟩ := best
      rw [multiHopLoop_step g f joins visited ordered remaining bn bp
        hne hpick]
      obtain ⟨v, hv, hbn, hbp⟩ :=
        (mem_candidatePaths g visited remaining (bn, bp)).mp
          (pickBest_eq_some _ _ hpick)
      dsimp only at hbn hbp
      obtain ⟨hbh, hbl, hbpath⟩ := shortest_path_sound g v bn bp hbp
      have hrv : Reach g t0 v := hvis v hv
      have hrbn : Reach g t0 bn :=
        Relation.ReflTransGen.trans hrv (chain_to_reach g bp v bn hbpath hbh hbl)
      have htbn : tbad ≠ bn := by
        intro hcontra
        subst hcontra
        exact hbad hrbn
      apply ih
      · exact (List.mem_erase_of_ne htbn).mpr hmem
      · intro x hx
        rcases foldl_insertNew_sub bp visited x hx with h1 | h1
        · exact hvis x h1
        · exact Relation.ReflTransGen.trans hrv
            (path_nodes_reach g bp v hbpath hbh x h1)

/-- C7: for a requested table list of two or more entries,
`get_multi_hop_path` returns `none` when some requested table is absent
from the built graph, and also when the requested tables are not all
mutually connected; when every requested table is present and the set is
fully connected, it returns a plan that carries the request, whose
visitation sequence contains every requested table, whose join list
never repeats an ordered (from, to) pair, and whose `total_hops` equals
the length of the join list. -/
theorem C7_get_multi_hop_path (md : SchemaMeta) (tables : List String)
    (hlen : 2 ≤ tables.length) :
    ((∃ t ∈ tables, hasNode (build_graph md) t = false) →
      get_multi_hop_path (build_graph md) tables = none) ∧
    ((¬ ∀ a ∈ tables, ∀ b ∈ tables, Reach (build_graph md) a b) →
      get_multi_hop_path (build_graph md) tables = none) ∧
    ((∀ t ∈ tables, hasNode (build_graph md) t = true) →
      (∀ a ∈ tables, ∀ b ∈ tables, Reach (build_graph md) a b) →
      ∃ mh : MultiHop,
        get_multi_hop_path (build_graph md) tables = some mh ∧
        mh.tables = tables ∧
        (∀ t ∈ tables, t ∈ mh.path) ∧
        (joinPairs mh.joins).Nodup ∧
        mh.total_hops = mh.joins.length) := by
  set g := build_graph md with hg
  have hL : ¬ tables.length < 2 := by omega
  refine ⟨?_, ?_, ?_⟩
  · rintro ⟨t, ht, htabs⟩
    have hany : tables.any (fun t => ! hasNode g t) = true :=
      List.any_eq_true.mpr ⟨t, ht, by
        show (! hasNode g t) = true
        rw [htabs]
        rfl⟩
    unfold get_multi_hop_path
    rw [if_neg hL, if_pos hany]
  · intro hconn
    unfold get_multi_hop_path
    rw [if_neg hL]
    by_cases hanyb : tables.any (fun t => ! hasNode g t) = true
    · rw [if_pos hanyb]
    · rw [if_neg hanyb]
      cases tables with
      | nil => simp at hlen
      | cons t0 rest =>
        have hsymm : EdgeSymm g := by
          rw [hg]
          exact edgeSymm_build_graph md
        have hnall : ∃ t ∈ t0 :: rest, ¬ Reach g t0 t := by
          by_contra hno
          push_neg at hno
          apply hconn
          intro a ha b hb
          exact Relation.ReflTransGen.trans
            (reach_symm g hsymm (hno a ha)) (hno b hb)
        obtain ⟨t, ht, hnr⟩ := hnall
        have htne : t ≠ t0 := by
          intro h
          subst h
          exact hnr Relation.ReflTransGen.refl
        have htrest : t ∈ rest := by
          rcases List.mem_cons.mp ht with h | h
          · exact absurd h htne
          · exact h
        have hfail := multiHopLoop_fail g t0 t hnr (rest.dedup).length
          [] [t0] [t0] rest.dedup (List.mem_dedup.mpr htrest)
          (by
            intro v hv
            simp only [List.mem_singleton] at hv
            subst hv
            exact Relation.ReflTransGen.refl)
        simp only [List.drop_one, List.tail_cons, List.headD_cons]
        rw [hfail]
  · intro hpres hpair
    have hanyb : ¬ tables.any (fun t => ! hasNode g t) = true := by
      intro hcontra
      obtain ⟨t, ht, hf⟩ := List.any_eq_true.mp hcontra
      rw [hpres t ht] at hf
      simp at hf
    unfold get_multi_hop_path
    rw [if_neg hL, if_neg hanyb]
    cases tables with
    | nil => simp at hlen
    | cons t0 rest =>
      have hreach0 : ∀ t ∈ rest.dedup, Reach g t0 t := by
        intro t ht
        exact hpair t0 (by simp) t
          (List.mem_cons.mpr (Or.inr (List.mem_dedup.mp ht)))
      obtain ⟨o2, j2, heq, hsub, hcov, hnd⟩ :=
        multiHopLoop_success g (by rw [hg]; exact wf_build_graph md) t0
          (rest.dedup).length [] [t0] [t0] rest.dedup le_rfl (by simp)
          hreach0 (by simp [joinPairs])
      simp only [List.drop_one, List.tail_cons, List.headD_cons]
      rw [heq]
      refine ⟨⟨t0 :: rest, o2, j2, j2.length⟩, rfl, rfl, ?_, hnd, rfl⟩
      intro t ht
      rcases List.mem_cons.mp ht with h | h
      · subst h
        exact hsub _ (by simp)
      · exact hcov t (List.mem_dedup.mpr h)

/-- Witness for C7 on the spec's A-B-C example: requesting ["A", "C"]
yields a plan visiting every requested table with duplicate-free joins
and `total_hops` equal to the join count. -/
theorem C7_get_multi_hop_path_witness :
    ∃ mh : MultiHop,
      get_multi_hop_path
        (build_graph ⟨[],
          [⟨"A.x", "B.y", "fk", ""⟩, ⟨"B.z", "C.w", "fk", ""⟩]⟩)
        ["A", "C"] = some mh ∧
      mh.tables = ["A", "C"] ∧
      (∀ t ∈ (["A", "C"] : List String), t ∈ mh.path) ∧
      (joinPairs mh.joins).Nodup ∧
      mh.total_hops = mh.joins.length := by
  have heAB : hasEdgeB (build_graph ⟨[],
      [⟨"A.x", "B.y", "fk", ""⟩, ⟨"B.z", "C.w", "fk", ""⟩]⟩) "A" "B" = true := by
    decide
  have heBC : hasEdgeB (build_graph ⟨[],
      [⟨"A.x", "B.y", "fk", ""⟩, ⟨"B.z", "C.w", "fk", ""⟩]⟩) "B" "C" = true := by
    decide
  have heCB : hasEdgeB (build_graph ⟨[],
      [⟨"A.x", "B.y", "fk", ""⟩, ⟨"B.z", "C.w", "fk", ""⟩]⟩) "C" "B" = true := by
    decide
  have heBA : hasEdgeB (build_graph ⟨[],
      [⟨"A.x", "B.y", "fk", ""⟩, ⟨"B.z", "C.w", "fk", ""⟩]⟩) "B" "A" = true := by
    decide
  have hAC : Reach (build_graph ⟨[],
      [⟨"A.x", "B.y", "fk", ""⟩, ⟨"B.z", "C.w", "fk", ""⟩]⟩) "A" "C" :=
    Relation.ReflTransGen.head heAB
      (Relation.ReflTransGen.head heBC Relation.ReflTransGen.refl)
  have hCA : Reach (build_graph ⟨[],
      [⟨"A.x", "B.y", "fk", ""⟩, ⟨"B.z", "C.w", "fk", ""⟩]⟩) "C" "A" :=
    Relation.ReflTransGen.head heCB
      (Relation.ReflTransGen.head heBA Relation.ReflTransGen.refl)
  refine (C7_get_multi_hop_path
      ⟨[], [⟨"A.x", "B.y", "fk", ""⟩, ⟨"B.z", "C.w", "fk", ""⟩]⟩
      ["A", "C"] (by decide)).2.2 (by decide) ?_
  intro a ha b hb
  simp only [List.mem_cons, List.not_mem_nil, or_false] at ha hb
  rcases ha with rfl | rfl <;> rcases hb with rfl | rfl
  · exact Relation.ReflTransGen.refl
  · exact hAC
  · exact hCA
  · exact Relation.ReflTransGen.refl

end Spec
